import Mathlib

/-!
Shallow embedding of the GreenWall core (Go + Wails application) for checking
its natural-language specification.

Sources embedded here:
* `templates/languages/*.go` — the language-template registry (factory) and the
  template implementations that are present in the sources (markdown, swift, vue);
* the multi-language module (`getLanguageCodeBytes`, `selectLanguageByRatio`,
  `validateLanguageConfigs`, `normalizeLanguageConfigs`,
  `generateMultiLanguageReadme`, `mergeAdditionalFiles`);
* `app.go` `GenerateRepo` — the fast-import stream builder, modelled as a pure
  function producing a trace of local effects plus either an error or the
  response together with the structured fast-import stream;
* `github.go` `PushToGitHub` — modelled as a pure state machine over an
  environment describing the outcomes of the external calls (HTTP, git),
  producing the trace of external operations and the response.

Machine integers: Go `int` is embedded as `Int` where negative values are
reachable (ratios, day counts) and as `Nat` where the source guarantees
non-negativity (loop counters, marks, weights); no arithmetic here approaches
2^63, so overflow is not modelled.  Go integer division (truncation toward
zero) is written `Int.div` explicitly.  Go runtime panics (integer division by
zero) are embedded as `Option`/`Except` failures.
-/

namespace GreenWall

/-! ## Language template registry (templates/languages) -/

/-- Tags for the twenty registered template implementations
(`templates/languages/factory.go`); in Go each is a distinct struct type and
`GetLanguageTemplate` returns a pointer to one of them, so the identity of the
implementation is exactly this tag. -/
inductive TemplateTag where
  | markdown | java | python | javascript | typescript | go | rust | cpp | c
  | csharp | php | ruby | swift | kotlin | shell | vue | html | css | scss | sql
deriving DecidableEq

/-- The language identifier constants (`LanguageType`) of the language package,
one per registered template. -/
def languageId : TemplateTag → String
  | .markdown => "markdown"
  | .java => "java"
  | .python => "python"
  | .javascript => "javascript"
  | .typescript => "typescript"
  | .go => "go"
  | .rust => "rust"
  | .cpp => "cpp"
  | .c => "c"
  | .csharp => "csharp"
  | .php => "php"
  | .ruby => "ruby"
  | .swift => "swift"
  | .kotlin => "kotlin"
  | .shell => "shell"
  | .vue => "vue"
  | .html => "html"
  | .css => "css"
  | .scss => "scss"
  | .sql => "sql"

/-- The list returned by `GetAllLanguages` in `factory.go` (the twenty
registered identifiers, in source order). -/
def getAllLanguages : List String :=
  ["markdown", "java", "python", "javascript", "typescript", "go", "rust",
   "cpp", "c", "csharp", "php", "ruby", "swift", "kotlin", "shell", "vue",
   "html", "css", "scss", "sql"]

/-- ASCII lower-casing of one character, the fragment of Go `strings.ToLower`
relevant to language identifiers (all registered identifiers are ASCII). -/
def toLowerChar (c : Char) : Char :=
  if 65 ≤ c.toNat ∧ c.toNat ≤ 90 then Char.ofNat (c.toNat + 32) else c

/-- ASCII fragment of Go `strings.ToLower`, applied character-wise. -/
def goToLower (s : String) : String :=
  String.mk (s.data.map toLowerChar)

/-- The factory `GetLanguageTemplate` (`factory.go`): lower-case the incoming
identifier, match it against the registered identifiers, and fall back to the
Markdown template on no match.  The Go `switch` is an equality chain. -/
def getLanguageTemplate (lang : String) : TemplateTag :=
  let l := goToLower lang
  if l = "markdown" then .markdown
  else if l = "java" then .java
  else if l = "python" then .python
  else if l = "javascript" then .javascript
  else if l = "typescript" then .typescript
  else if l = "go" then .go
  else if l = "rust" then .rust
  else if l = "cpp" then .cpp
  else if l = "c" then .c
  else if l = "csharp" then .csharp
  else if l = "php" then .php
  else if l = "ruby" then .ruby
  else if l = "swift" then .swift
  else if l = "kotlin" then .kotlin
  else if l = "shell" then .shell
  else if l = "vue" then .vue
  else if l = "html" then .html
  else if l = "css" then .css
  else if l = "scss" then .scss
  else if l = "sql" then .sql
  else .markdown

/-- Character-wise replacement of `-` by `_`, the instance of Go
`strings.ReplaceAll(date, "-", "_")` used by the swift template. -/
def replaceDashByUnderscore (s : String) : String :=
  String.mk (s.data.map (fun c => if c = '-' then '_' else c))

/-- The swift template `GenerateCode` (`templates/languages/swift.go`),
transliterated from the Go `fmt.Sprintf` call. -/
def swiftGenerateCode (date : String) (commitNum totalCommits : Nat) : String :=
  let className := "Contribution_" ++ replaceDashByUnderscore date ++ "_" ++ toString commitNum
  "//\n//  " ++ className ++ ".swift\n//  GreenWall\n//\n//  Created for contribution on "
    ++ date ++ "\n//  Commit " ++ toString commitNum ++ " of " ++ toString totalCommits
    ++ "\n//\n\nimport Foundation\n\nstruct " ++ className
    ++ " \x7b\n    let date = \"" ++ date ++ "\"\n    let commitNumber = "
    ++ toString commitNum ++ "\n    let totalCommits = " ++ toString totalCommits
    ++ "\n    \n    var info: String \x7b\n        return \"Contribution on \\(date) (\\(commitNumber)/\\(totalCommits))\"\n    \x7d\n\x7d\n\n// Usage\n#if DEBUG\nlet contribution = "
    ++ className ++ "()\nprint(contribution.info)\n#endif\n"

/-- The vue template `GenerateCode` (`templates/languages/vue.go`),
transliterated from the Go `fmt.Sprintf` call. -/
def vueGenerateCode (date : String) (commitNum totalCommits : Nat) : String :=
  "<template>\n  <div class=\"contribution\">\n    <h3>Contribution Record</h3>\n    <p>Date: \x7b\x7b date \x7d\x7d</p>\n    <p>Commit: \x7b\x7b commitNumber \x7d\x7d / \x7b\x7b totalCommits \x7d\x7d</p>\n  </div>\n</template>\n\n<script>\nexport default \x7b\n  name: \x27ContributionRecord\x27,\n  data() \x7b\n    return \x7b\n      date: \x27"
    ++ date ++ "\x27,\n      commitNumber: " ++ toString commitNum
    ++ ",\n      totalCommits: " ++ toString totalCommits
    ++ "\n    \x7d\n  \x7d\n\x7d\n</script>\n\n<style scoped>\n.contribution \x7b\n  border: 1px solid #ddd;\n  padding: 1rem;\n  margin: 1rem;\n  border-radius: 4px;\n\x7d\n</style>\n"

/-- Modelled from the spec: the seventeen template implementations other than
markdown, swift and vue are not among the provided sources (the spec's §4.3
declares their content bodies boilerplate and out of scope); their generated
code is modelled as one definite line per language. -/
def modelledGenerateCode (tag : TemplateTag) (date : String) (commitNum totalCommits : Nat) : String :=
  "// " ++ languageId tag ++ " contribution on " ++ date ++ " ("
    ++ toString commitNum ++ "/" ++ toString totalCommits ++ ")\n"

/-- Per-template `GenerateCode` dispatch; markdown (language package interface
file), swift and vue are transliterated from the sources, the rest are
modelled (see `modelledGenerateCode`). -/
def generateCode : TemplateTag → String → Nat → Nat → String
  | .markdown, date, commitNum, _ => date ++ " commit " ++ toString commitNum ++ "\n"
  | .swift, date, commitNum, totalCommits => swiftGenerateCode date commitNum totalCommits
  | .vue, date, commitNum, totalCommits => vueGenerateCode date commitNum totalCommits
  | tag, date, commitNum, totalCommits => modelledGenerateCode tag date commitNum totalCommits

/-- Modelled from the spec: activity file names of the seventeen template
implementations missing from the sources; §4.3 only requires a per-language
activity file path, so a definite distinct name is chosen per language. -/
def modelledActivityFileName (tag : TemplateTag) : String :=
  "Activity." ++ languageId tag

/-- Per-template `GetActivityFileName`; the markdown, swift and vue names come
from the sources, the rest are modelled. -/
def getActivityFileName : TemplateTag → String
  | .markdown => "activity.md"
  | .swift => "Activity.swift"
  | .vue => "Activity.vue"
  | tag => modelledActivityFileName tag

/-- Modelled from the spec: display names of the template implementations
missing from the sources (used only for readme text). -/
def modelledLanguageName (tag : TemplateTag) : String :=
  languageId tag

/-- Per-template `GetLanguageName`. -/
def getLanguageName : TemplateTag → String
  | .markdown => "Markdown"
  | .swift => "Swift"
  | .vue => "Vue"
  | tag => modelledLanguageName tag

/-- The markdown template `GetReadmeContent` (language package interface file). -/
def markdownReadme (repoName : String) : String :=
  "# " ++ repoName ++ "\n\nGenerated with [GreenWall](https://github.com/Cail-Gainey/GreenWall).\n"

/-- The swift template `GetReadmeContent` (`templates/languages/swift.go`). -/
def swiftReadme (repoName : String) : String :=
  "# " ++ repoName ++ "\n\nA Swift project generated with [GreenWall](https://github.com/Cail-Gainey/GreenWall).\n\n## About\n\nThis repository contains automatically generated Swift contribution records.\n\n## Structure\n\n- `Sources/` - Swift source files\n- `Package.swift` - Swift package manifest\n- `README.md` - This file\n\n## License\n\nMIT License\n"

/-- The vue template `GetReadmeContent` (`templates/languages/vue.go`). -/
def vueReadme (repoName : String) : String :=
  "# " ++ repoName ++ "\n\nA Vue.js project generated with [GreenWall](https://github.com/Cail-Gainey/GreenWall).\n\n## About\n\nThis repository contains automatically generated Vue components representing contributions.\n\n## Structure\n\n- `src/components/` - Vue components\n- `package.json` - Dependencies\n- `README.md` - This file\n\n## License\n\nMIT License\n"

/-- Modelled from the spec: readme bodies of the template implementations
missing from the sources (`readme(repoName) -> content` in §4.3). -/
def modelledReadme (tag : TemplateTag) (repoName : String) : String :=
  "# " ++ repoName ++ "\n\nA " ++ languageId tag ++ " project generated with GreenWall.\n"

/-- Per-template `GetReadmeContent`. -/
def getReadmeContent : TemplateTag → String → String
  | .markdown, repoName => markdownReadme repoName
  | .swift, repoName => swiftReadme repoName
  | .vue, repoName => vueReadme repoName
  | tag, repoName => modelledReadme tag repoName

/-- The swift template `GetAdditionalFiles` (`templates/languages/swift.go`);
the Go map literal is embedded as an association list in literal order (Go map
iteration order is not specified; the claims below never depend on it). -/
def swiftAdditionalFiles (repoName : String) : List (String × String) :=
  [("Package.swift",
    "// swift-tools-version:5.5\nimport PackageDescription\n\nlet package = Package(\n    name: \"" ++ repoName
      ++ "\",\n    products: [\n        .library(name: \"" ++ repoName ++ "\", targets: [\"" ++ repoName
      ++ "\"]),\n    ],\n    dependencies: [],\n    targets: [\n        .target(name: \"" ++ repoName
      ++ "\", dependencies: []),\n        .testTarget(name: \"" ++ repoName ++ "Tests\", dependencies: [\"" ++ repoName
      ++ "\"]),\n    ]\n)\n"),
   (".gitignore", ".DS_Store\n/.build\n/Packages\n/*.xcodeproj\n/*.xcworkspace\n")]

/-- The vue template `GetAdditionalFiles` (`templates/languages/vue.go`). -/
def vueAdditionalFiles (repoName : String) : List (String × String) :=
  [("package.json",
    "\x7b\n  \"name\": \"" ++ repoName
      ++ "\",\n  \"version\": \"1.0.0\",\n  \"private\": true,\n  \"scripts\": \x7b\n    \"serve\": \"vue-cli-service serve\",\n    \"build\": \"vue-cli-service build\"\n  \x7d,\n  \"dependencies\": \x7b\n    \"vue\": \"^3.0.0\"\n  \x7d,\n  \"devDependencies\": \x7b\n    \"@vue/cli-service\": \"~5.0.0\"\n  \x7d\n\x7d\n"),
   (".gitignore", "node_modules/\ndist/\n.env\n.DS_Store\n.vscode/\n.idea/\n")]

/-- Per-template `GetAdditionalFiles`; the markdown template returns the empty
map (interface file); swift and vue come from the sources; for the remaining
implementations the files are modelled from the spec as empty (no claim
depends on them). -/
def getAdditionalFiles : TemplateTag → String → List (String × String)
  | .markdown, _ => []
  | .swift, repoName => swiftAdditionalFiles repoName
  | .vue, repoName => vueAdditionalFiles repoName
  | _, _ => []

/-- The path computation `GetCodeFilePath` of `factory.go`; `GenerateRepo`
calls it with an empty base path, in which case it returns the activity file
name unchanged. -/
def getCodeFilePath (basePath : String) (lang : String) (_date : String) (_commitNum : Nat) : String :=
  let filename := getActivityFileName (getLanguageTemplate lang)
  if basePath = "" then filename else basePath ++ "/" ++ filename

/-! ## Multi-language module (weights, selection, validation, normalization) -/

/-- The static per-language byte-cost table `getLanguageCodeBytes`; the Go
switch converts the raw identifier to `LanguageType` without lower-casing,
so the match is case-sensitive with default 500. -/
def getLanguageCodeBytes (lang : String) : Nat :=
  if lang = "java" then 650
  else if lang = "python" then 650
  else if lang = "javascript" then 550
  else if lang = "typescript" then 950
  else if lang = "go" then 850
  else if lang = "rust" then 800
  else if lang = "cpp" then 750
  else if lang = "c" then 550
  else if lang = "csharp" then 720
  else if lang = "php" then 620
  else if lang = "ruby" then 600
  else if lang = "swift" then 650
  else if lang = "kotlin" then 720
  else if lang = "shell" then 450
  else if lang = "vue" then 1300
  else if lang = "html" then 900
  else if lang = "css" then 700
  else if lang = "scss" then 750
  else if lang = "sql" then 500
  else if lang = "markdown" then 30
  else 500

/-- A `LanguageConfig` entry: target language identifier and its intended
ratio (a Go `int`, hence `Int`: negative values are representable and are
only rejected by validation). -/
structure LanguageConfig where
  Language : String
  Ratio : Int
deriving DecidableEq

/-- Weight of one positive-ratio entry, from the body of
`selectLanguageByRatio`: `weight := (ratio * 10000) / bytes; if weight < 1
then 1`.  The caller guarantees `0 < Ratio`, so the Go `int` arithmetic
agrees with the `Nat` arithmetic on `Ratio.toNat` (the divisor is a positive
table entry and Go division of non-negatives truncates like `Nat` division). -/
def weightOfConfig (c : LanguageConfig) : Nat :=
  let w := c.Ratio.toNat * 10000 / getLanguageCodeBytes c.Language
  if w < 1 then 1 else w

/-- The compensated weight list built at the top of `selectLanguageByRatio`:
entries with `Ratio <= 0` are skipped, each kept entry carries its weight. -/
def weightedConfigs (configs : List LanguageConfig) : List (String × Nat) :=
  (configs.filter (fun c => decide (0 < c.Ratio))).map (fun c => (c.Language, weightOfConfig c))

/-- Total weight of a weighted list (the loop accumulator `totalWeight` of
`selectLanguageByRatio`, which sums the weights of the kept entries). -/
def sumWeights (ws : List (String × Nat)) : Nat :=
  (ws.map Prod.snd).sum

/-- The scan loop of `selectLanguageByRatio`: walk the weighted list
accumulating `cumulative += weight` and return the first entry with
`position < cumulative`; `none` when the walk falls off the end. -/
def walkCum : List (String × Nat) → Nat → Nat → Option String
  | [], _, _ => none
  | (l, w) :: rest, position, cumulative =>
    if position < cumulative + w then some l else walkCum rest position (cumulative + w)

/-- The weighted round-robin selector `selectLanguageByRatio`: empty config
list falls back to "markdown", a single entry short-circuits to its language;
otherwise the commit index is reduced modulo the total weight and the walk
picks the entry whose cumulative range contains the position (with the
source's fall-back to the first weighted entry). -/
def selectLanguageByRatio (configs : List LanguageConfig) (commitIndex : Nat) : String :=
  match configs with
  | [] => "markdown"
  | [c] => c.Language
  | c0 :: _ :: _ =>
    let weighted := weightedConfigs configs
    let totalWeight := sumWeights weighted
    if totalWeight = 0 ∨ weighted = [] then c0.Language
    else
      let position := commitIndex % totalWeight
      match walkCum weighted position 0 with
      | some l => l
      | none => (weighted.headD ("", 0)).1

/-- The per-entry loop of `validateLanguageConfigs`: returns the first error
(empty identifier, negative ratio, ratio above 100, in entry order) or the
accumulated ratio sum. -/
def validateLoop : List LanguageConfig → Nat → Int → Option String × Int
  | [], _, total => (none, total)
  | c :: rest, i, total =>
    if c.Language = "" then (some ("语言配置[" ++ toString i ++ "]: 语言类型不能为空"), total)
    else if c.Ratio < 0 then (some ("语言配置[" ++ toString i ++ "]: 比例不能为负数"), total)
    else if 100 < c.Ratio then (some ("语言配置[" ++ toString i ++ "]: 单个语言比例不能超过 100%"), total)
    else validateLoop rest (i + 1) (total + c.Ratio)

/-- The validator `validateLanguageConfigs`; `some` is the returned error. -/
def validateLanguageConfigs (configs : List LanguageConfig) : Option String :=
  match configs with
  | [] => some "至少需要配置一种语言"
  | _ =>
    match validateLoop configs 0 0 with
    | (some e, _) => some e
    | (none, total) => if total = 0 then some "语言比例总和不能为 0" else none

/-- The normalizer `normalizeLanguageConfigs`.  A total ratio in `[95, 105]`
is accepted unchanged; otherwise every ratio is rescaled by `ratio * 100 /
totalRatio` with Go's truncating integer division (`Int.tdiv`).  When the sum
is 0 and the list non-empty the Go code divides by zero, a runtime panic,
embedded as `none`. -/
def normalizeLanguageConfigs (configs : List LanguageConfig) : Option (List LanguageConfig) :=
  match configs with
  | [] => some [⟨"markdown", 100⟩]
  | _ =>
    let totalRatio := (configs.map LanguageConfig.Ratio).sum
    if 95 ≤ totalRatio ∧ totalRatio ≤ 105 then some configs
    else if totalRatio = 0 then none
    else some (configs.map (fun c => ⟨c.Language, Int.tdiv (c.Ratio * 100) totalRatio⟩))

/-- The readme generator `generateMultiLanguageReadme`: a single entry
delegates to that language's template readme; otherwise a multi-language
readme listing every configured language with its ratio. -/
def generateMultiLanguageReadme (repoName : String) (languageConfigs : List LanguageConfig) : String :=
  match languageConfigs with
  | [c] => getReadmeContent (getLanguageTemplate c.Language) repoName
  | _ =>
    "# " ++ repoName ++ "\n\nGenerated with [GreenWall](https://github.com/Cail-Gainey/GreenWall).\n\n"
      ++ "## Languages\n\nThis repository contains contributions in multiple programming languages:\n\n"
      ++ String.join (languageConfigs.map (fun config =>
           "- **" ++ getLanguageName (getLanguageTemplate config.Language) ++ "** ("
             ++ toString config.Ratio ++ "%)\n"))
      ++ "\n## About\n\nThis is an automatically generated repository showcasing contributions across different programming languages.\n\n"
      ++ "Each commit uses a different language based on the configured ratios, creating a diverse and colorful contribution graph.\n\n"
      ++ "## License\n\nMIT License\n"

/-- Lookup in the accumulated file list of `mergeAdditionalFiles` (the Go
`allFiles` map, kept here as an association list in insertion order). -/
def lookupFile (acc : List (String × String)) (p : String) : Option String :=
  (acc.find? (fun kv => kv.1 = p)).map Prod.snd

/-- Inner loop of `mergeAdditionalFiles` over one template's files: identical
duplicates are skipped, conflicting paths get the language identifier as a
suffix, new paths are added. -/
def addFiles (lang : String) : List (String × String) → List (String × String) → List (String × String)
  | acc, [] => acc
  | acc, (p, content) :: rest =>
    match lookupFile acc p with
    | some existing =>
      if existing = content then addFiles lang acc rest
      else addFiles lang (acc ++ [(p ++ "." ++ lang, content)]) rest
    | none => addFiles lang (acc ++ [(p, content)]) rest

/-- The aggregator `mergeAdditionalFiles`: all templates' additional files in
config order (Go map iteration order is abstracted to the literal order of
each template's file list). -/
def mergeAdditionalFiles (repoName : String) (configs : List LanguageConfig) : List (String × String) :=
  configs.foldl
    (fun acc c => addFiles c.Language acc (getAdditionalFiles (getLanguageTemplate c.Language) repoName))
    []

/-! ## Calendar dates

`GenerateRepo` parses each contribution date with Go's
`time.Parse("2006-01-02", ...)`, whose fixed-width layout accepts exactly a
four-digit year, a two-digit month `01..12` and a two-digit day that is valid
for that month, separated by `-`, with nothing left over; the parsed time is
midnight UTC and `.Unix()` is its epoch second.  The standard-library
behaviour is embedded below: proleptic Gregorian day counting from year 0. -/

/-- Decide whether a character is an ASCII digit. -/
def isDigitChar (c : Char) : Bool :=
  48 ≤ c.toNat ∧ c.toNat ≤ 57

/-- Numeric value of an ASCII digit character. -/
def digitVal (c : Char) : Nat :=
  c.toNat - 48

/-- Gregorian leap-year rule (as in Go's `time` package). -/
def isLeapYear (y : Nat) : Bool :=
  (y % 4 = 0 ∧ y % 100 ≠ 0) ∨ y % 400 = 0

/-- Days in a month of a given year (months are 1-based; other values give 0). -/
def daysInMonth (y m : Nat) : Nat :=
  if m = 1 then 31
  else if m = 2 then (if isLeapYear y then 29 else 28)
  else if m = 3 then 31
  else if m = 4 then 30
  else if m = 5 then 31
  else if m = 6 then 30
  else if m = 7 then 31
  else if m = 8 then 31
  else if m = 9 then 30
  else if m = 10 then 31
  else if m = 11 then 30
  else if m = 12 then 31
  else 0

/-- Days of year `y` that precede month `m` (so `daysBeforeMonth y 1 = 0`). -/
def daysBeforeMonth (y : Nat) : Nat → Nat
  | 0 => 0
  | m + 1 => daysBeforeMonth y m + daysInMonth y m

/-- Length of year `y` in days. -/
def daysInYear (y : Nat) : Nat :=
  daysBeforeMonth y 13

/-- Days strictly before year `y`, counting from year 0 of the proleptic
Gregorian calendar: 365 per year plus one per leap year strictly below `y`
(closed form, as Go's `time.daysSinceEpoch` computes it by whole 400/100/4
year cycles rather than a year-by-year loop). -/
def daysBeforeYear (y : Nat) : Nat :=
  365 * y + (y + 3) / 4 - (y + 99) / 100 + (y + 399) / 400

/-- Ordinal day number of a calendar date (year 0, January 1st is day 0). -/
def dayNumber (y m d : Nat) : Nat :=
  daysBeforeYear y + daysBeforeMonth y m + (d - 1)

/-- Epoch second of midnight UTC of a calendar date; 719528 is the day number
of 1970-01-01. -/
def midnightEpoch (y m d : Nat) : Int :=
  86400 * ((dayNumber y m d : Int) - 719528)

/-- Parse a `YYYY-MM-DD` character list as Go's fixed-width layout
`"2006-01-02"` does: exactly ten characters, digits in the fixed positions,
dashes in between, month in `1..12`, day valid for the month. -/
def parseDateChars : List Char → Option (Nat × Nat × Nat)
  | [y1, y2, y3, y4, h1, m1, m2, h2, d1, d2] =>
    if h1 = '-' ∧ h2 = '-' ∧ isDigitChar y1 ∧ isDigitChar y2 ∧ isDigitChar y3 ∧
        isDigitChar y4 ∧ isDigitChar m1 ∧ isDigitChar m2 ∧ isDigitChar d1 ∧ isDigitChar d2 then
      let y := 1000 * digitVal y1 + 100 * digitVal y2 + 10 * digitVal y3 + digitVal y4
      let m := 10 * digitVal m1 + digitVal m2
      let d := 10 * digitVal d1 + digitVal d2
      if 1 ≤ m ∧ m ≤ 12 ∧ 1 ≤ d ∧ d ≤ daysInMonth y m then some (y, m, d) else none
    else none
  | _ => none

/-- Parse a date string (see `parseDateChars`). -/
def parseDate (s : String) : Option (Nat × Nat × Nat) :=
  parseDateChars s.data

/-- Epoch second of midnight of a parseable date string. -/
def epochOfDate (s : String) : Option Int :=
  (parseDate s).map (fun p => midnightEpoch p.1 p.2.1 p.2.2)

/-! ## Go string comparison and the contribution-day sort -/

/-- Go's `<` on strings is byte-wise lexicographic comparison of the UTF-8
encodings; on the ASCII strings compared here this is character-wise
comparison of code points. -/
def charListLt : List Char → List Char → Bool
  | [], [] => false
  | [], _ :: _ => true
  | _ :: _, [] => false
  | a :: as, b :: bs =>
    if a.toNat < b.toNat then true
    else if b.toNat < a.toNat then false
    else charListLt as bs

/-- Go string `<` lifted to Lean strings. -/
def goStringLt (a b : String) : Bool :=
  charListLt a.data b.data

/-- A single day's contribution request: date string and commit count (a Go
`int`, negative values representable and rejected by `GenerateRepo`). -/
structure ContributionDay where
  Date : String
  Count : Int
deriving DecidableEq

/-- The order in which `GenerateRepo` sorts contribution days:
`sort.Slice(contribs, ...Date < ...Date)` sorts ascending by Go string `<`,
i.e. the sorted list is non-descending under this relation. -/
def dayLe (a b : ContributionDay) : Prop :=
  goStringLt b.Date a.Date = false

instance : DecidableRel dayLe := fun a b =>
  inferInstanceAs (Decidable (goStringLt b.Date a.Date = false))

/-- The contribution-day sort of `GenerateRepo`.  Go's `sort.Slice` is an
unstable sort; the order among equal dates is unspecified there and fixed
here by insertion sort (no claim depends on the tie order). -/
def sortContribs (l : List ContributionDay) : List ContributionDay :=
  List.insertionSort dayLe l

/-! ## The fast-import stream builder (`GenerateRepo` in app.go)

The Go code serialises blobs and commits into a `git fast-import` byte
stream.  The stream is embedded structurally: each `blob`/`mark`/`data`
group becomes a `StreamObject.blob`, each
`commit`/`author`/`committer`/`data`/`M 100644` group a
`StreamObject.commit`, and the final `done` line a `StreamObject.done`.
Local side effects (directory creation, file writes, git subprocess calls)
are recorded as a trace of `LocalOp`; the external operations are assumed to
succeed (their failure paths return early and no claim depends on them). -/

/-- One commit record of the fast-import stream: branch ref, author and
committer lines, message, and the `M 100644 :mark path` file bindings in
emission order. -/
structure CommitObject where
  branch : String
  authorName : String
  authorEmail : String
  authorSecs : Int
  authorTz : String
  committerName : String
  committerEmail : String
  committerSecs : Int
  committerTz : String
  message : String
  files : List (Nat × String)
deriving DecidableEq

/-- One object of the emitted fast-import stream. -/
inductive StreamObject where
  | blob (mark : Nat) (content : String)
  | commit (c : CommitObject)
  | done
deriving DecidableEq

/-- Local side effects of `GenerateRepo`, in execution order. -/
inductive LocalOp where
  | mkdirAll (path : String)
  | mkdirTemp (path : String)
  | writeFile (path : String) (content : String)
  | gitRun (args : List String)
  | gitFastImport
deriving DecidableEq

/-- ASCII whitespace test for the fragment of Go `strings.TrimSpace` used on
usernames, emails and repo names. -/
def isSpaceChar (c : Char) : Bool :=
  c = ' ' ∨ c = '\t' ∨ c = '\n' ∨ c = '\r'

/-- Go `strings.TrimSpace` (ASCII fragment). -/
def trimSpace (s : String) : String :=
  String.mk (((s.data.dropWhile isSpaceChar).reverse.dropWhile isSpaceChar).reverse)

/-- Characters the repo-name sanitiser keeps (`[^a-zA-Z0-9._-]+` is replaced). -/
def isRepoNameChar (c : Char) : Bool :=
  (97 ≤ c.toNat ∧ c.toNat ≤ 122) ∨ (65 ≤ c.toNat ∧ c.toNat ≤ 90) ∨
    (48 ≤ c.toNat ∧ c.toNat ≤ 57) ∨ c = '.' ∨ c = '_' ∨ c = '-'

/-- Dropping a prefix cannot lengthen a list (termination helper). -/
theorem length_dropWhile_le' {α : Type} (p : α → Bool) (l : List α) :
    (l.dropWhile p).length ≤ l.length := by
  induction l with
  | nil => simp [List.dropWhile]
  | cons a t ih =>
    by_cases h : p a = true
    · simp only [List.dropWhile, h]
      exact Nat.le_succ_of_le ih
    · simp only [List.dropWhile, h]
      simp

/-- Replace each maximal run of disallowed characters by a single `-`
(the effect of `repoNameSanitiser.ReplaceAllString(input, "-")`). -/
def sanitiseChars : List Char → List Char
  | [] => []
  | c :: rest =>
    if isRepoNameChar c then c :: sanitiseChars rest
    else '-' :: sanitiseChars (rest.dropWhile (fun d => !isRepoNameChar d))
termination_by l => l.length
decreasing_by
  · simp only [List.length_cons]; omega
  · simp only [List.length_cons]
    exact Nat.lt_succ_of_le (length_dropWhile_le' _ _)

/-- The repo-name sanitiser `sanitiseRepoName` of app.go: trim whitespace,
collapse disallowed runs to `-`, trim `-`, cap at 64 characters. -/
def sanitiseRepoName (input : String) : String :=
  let t := trimSpace input
  if t = "" then ""
  else
    let replaced := sanitiseChars t.data
    let trimmed := ((replaced.dropWhile (fun c => c = '-')).reverse.dropWhile (fun c => c = '-')).reverse
    if trimmed = [] then ""
    else String.mk (trimmed.take 64)

/-- Last path component (Go `filepath.Base` for the slash-separated paths
built here). -/
def baseName (p : String) : String :=
  (p.splitOn "/").getLastD p

/-- Parent directory (Go `filepath.Dir` for the slash-separated paths built
here). -/
def parentDir (p : String) : String :=
  let parts := p.splitOn "/"
  if parts.length ≤ 1 then "." else String.intercalate "/" parts.dropLast

/-- The request accepted by `GenerateRepo`. -/
structure GenerateRepoRequest where
  Year : Int
  GithubUsername : String
  GithubEmail : String
  RepoName : String
  Contributions : List ContributionDay
  Language : String
  LanguageConfigs : List LanguageConfig
  MultiLanguage : Bool
deriving DecidableEq

/-- The response of `GenerateRepo`. -/
structure GenerateRepoResponse where
  RepoPath : String
  CommitCount : Nat
deriving DecidableEq

/-- One iteration of the inner per-day loop of the stream builder (`i` is
the 0-based loop index, `nextMark` the next unused mark, `totalCommits` the
global commit counter fed to the language selector): a blob with the next
unused mark holding the synthesized content, followed by a commit whose
author/committer timestamp is the day's base epoch plus `i` seconds, whose
message is `Contribution on {date} ({i+1}/{count})`, and which binds the
README mark `:1` and the new blob's mark. -/
def dayPairObjs (cfgs : List LanguageConfig) (username email readmeName date : String)
    (count : Nat) (base : Int) (i nextMark totalCommits : Nat) : List StreamObject :=
  let selectedLang := selectLanguageByRatio cfgs totalCommits
  let tag := getLanguageTemplate selectedLang
  let codeContent := generateCode tag date (i + 1) count
  let codeFilePath := getCodeFilePath "" selectedLang date (i + 1)
  let secs := base + (i : Int)
  [StreamObject.blob nextMark codeContent,
   StreamObject.commit
     { branch := "refs/heads/main"
       authorName := username, authorEmail := email, authorSecs := secs, authorTz := "+0000"
       committerName := username, committerEmail := email, committerSecs := secs, committerTz := "+0000"
       message := "Contribution on " ++ date ++ " (" ++ toString (i + 1) ++ "/" ++ toString count ++ ")"
       files := [(1, readmeName), (nextMark, codeFilePath)] }]

/-- Inner per-day loop of the stream builder: starting at loop index `i`,
run `r` further iterations (the caller passes `i = 0` and `r = count`),
emitting `dayPairObjs` each time while incrementing the mark and the global
commit counter. -/
def buildDayAux (cfgs : List LanguageConfig) (username email readmeName date : String)
    (count : Nat) (base : Int) : Nat → Nat → Nat → Nat → List StreamObject
  | _, 0, _, _ => []
  | i, r + 1, nextMark, totalCommits =>
    dayPairObjs cfgs username email readmeName date count base i nextMark totalCommits
      ++ buildDayAux cfgs username email readmeName date count base (i + 1) r (nextMark + 1) (totalCommits + 1)

/-- Outer loop of the stream builder over the sorted day list, threading the
next unused mark and the global commit counter; a date `time.Parse` failure
aborts the whole generation. -/
def buildDays (cfgs : List LanguageConfig) (username email readmeName : String) :
    List ContributionDay → Nat → Nat → Except String (List StreamObject × Nat × Nat)
  | [], nextMark, totalCommits => .ok ([], nextMark, totalCommits)
  | day :: rest, nextMark, totalCommits =>
    match parseDate day.Date with
    | none => .error ("invalid date \x22" ++ day.Date ++ "\x22")
    | some p =>
      let base := midnightEpoch p.1 p.2.1 p.2.2
      let c := day.Count.toNat
      let objs := buildDayAux cfgs username email readmeName day.Date c base 0 c nextMark totalCommits
      match buildDays cfgs username email readmeName rest (nextMark + c) (totalCommits + c) with
      | .error e => .error e
      | .ok (objs2, nm, tc) => .ok (objs ++ objs2, nm, tc)

/-- Resolution of the language configuration at the top of `GenerateRepo`:
multi-language mode validates and normalizes the supplied configs, otherwise
a single config of ratio 100 (default language "markdown") is used.  The
division-by-zero case of the normalizer is unreachable here because
validation has rejected zero ratio sums. -/
def resolveConfigs (req : GenerateRepoRequest) : Except String (List LanguageConfig) :=
  if req.MultiLanguage = true ∧ 0 < req.LanguageConfigs.length then
    match validateLanguageConfigs req.LanguageConfigs with
    | some e => .error ("invalid language configs: " ++ e)
    | none =>
      match normalizeLanguageConfigs req.LanguageConfigs with
      | some cfgs => .ok cfgs
      | none => .error "invalid language configs: integer division by zero"
  else
    .ok [⟨if req.Language = "" then "markdown" else req.Language, 100⟩]

/-- The effective committer name: trimmed username, with the source's
default when blank. -/
def effUsername (req : GenerateRepoRequest) : String :=
  if trimSpace req.GithubUsername = "" then "Cail Gainey" else trimSpace req.GithubUsername

/-- The effective committer email: trimmed email, with the source's default
when blank. -/
def effEmail (req : GenerateRepoRequest) : String :=
  if trimSpace req.GithubEmail = "" then "cailgainey@foxmail.com" else trimSpace req.GithubEmail

/-- The effective repository name: the trimmed requested name, defaulting to
`username` or `username-year`, sanitised, with final fallback
"contributions". -/
def effRepoName (req : GenerateRepoRequest) : String :=
  let rn0 := trimSpace req.RepoName
  let rn1 := if rn0 = "" then
      (if 0 < req.Year then effUsername req ++ "-" ++ toString req.Year else effUsername req)
    else rn0
  let rn2 := sanitiseRepoName rn1
  if rn2 = "" then "contributions" else rn2

/-- The ephemeral repository path: `os.MkdirTemp(repoBasePath, repoName+"-")`
with the random suffix supplied as a parameter. -/
def effRepoPath (repoBasePath tempSuffix : String) (req : GenerateRepoRequest) : String :=
  repoBasePath ++ "/" ++ effRepoName req ++ "-" ++ tempSuffix

/-- The contribution days `GenerateRepo` actually iterates: filtered to
positive counts and sorted ascending by date string. -/
def positiveContribs (req : GenerateRepoRequest) : List ContributionDay :=
  sortContribs (req.Contributions.filter (fun c => decide (0 < c.Count)))

/-- The core generator `GenerateRepo` of app.go, as a pure function from the
request (plus the app's base directory and the random temp-dir suffix chosen
by `os.MkdirTemp`) to the trace of local operations and either an error or
the response paired with the emitted fast-import stream. -/
def generateRepo (repoBasePath tempSuffix : String) (req : GenerateRepoRequest) :
    List LocalOp × Except String (GenerateRepoResponse × List StreamObject) :=
  match resolveConfigs req with
  | .error e => ([], .error e)
  | .ok languageConfigs =>
    if req.Contributions = [] then ([], .error "no contributions supplied")
    else
      match req.Contributions.find? (fun c => decide (c.Count < 0)) with
      | some day =>
        ([], .error ("invalid contribution count for " ++ day.Date ++ ": " ++ toString day.Count))
      | none =>
        let totalRequestedCommits := (req.Contributions.map ContributionDay.Count).sum
        if totalRequestedCommits = 0 then ([], .error "no commits to generate")
        else
          let username := effUsername req
          let email := effEmail req
          let repoName := effRepoName req
          let repoPath := effRepoPath repoBasePath tempSuffix req
          let readmePath := repoPath ++ "/README.md"
          let readmeContent := generateMultiLanguageReadme repoName languageConfigs
          let allAdditionalFiles := mergeAdditionalFiles repoName languageConfigs
          let ops : List LocalOp :=
            [LocalOp.mkdirAll repoBasePath, LocalOp.mkdirTemp repoPath,
             LocalOp.writeFile readmePath readmeContent]
            ++ allAdditionalFiles.flatMap (fun pc =>
                 [LocalOp.mkdirAll (parentDir (repoPath ++ "/" ++ pc.1)),
                  LocalOp.writeFile (repoPath ++ "/" ++ pc.1) pc.2])
            ++ [LocalOp.gitRun ["init"],
                LocalOp.gitRun ["config", "user.name", username],
                LocalOp.gitRun ["config", "user.email", email],
                LocalOp.gitRun ["config", "commit.gpgsign", "false"],
                LocalOp.gitRun ["config", "gc.auto", "0"],
                LocalOp.gitRun ["config", "core.autocrlf", "false"],
                LocalOp.gitRun ["config", "core.fsync", "none"]]
          let contribs := positiveContribs req
          match buildDays languageConfigs username email (baseName readmePath) contribs 2 0 with
          | .error e => (ops, .error e)
          | .ok (body, _, totalCommits) =>
            let stream := StreamObject.blob 1 readmeContent :: body ++ [StreamObject.done]
            let ops := ops ++
              (if 0 < totalCommits then
                 [LocalOp.gitFastImport, LocalOp.gitRun ["checkout", "-f", "main"]]
               else [])
            (ops, .ok ({ RepoPath := repoPath, CommitCount := totalCommits }, stream))

/-! ## The publish state machine (`PushToGitHub` in github.go)

`PushToGitHub` is a sequence of blocking external calls (HTTPS requests and
git subprocesses).  It is embedded as a pure function over an environment
that fixes the outcome of each external call, returning the trace of
external operations in execution order together with the response.  The
fire-and-forget progress events (`runtime.EventsEmit`) are not modelled: the
code never branches on them. -/

/-- Remote repository description returned by the GitHub API. -/
structure GitHubRepo where
  Name : String
  FullName : String
  Private : Bool
  HTMLURL : String
  DefaultBranch : String
deriving DecidableEq

/-- The request passed to `PushToGitHub`. -/
structure PushRepoRequest where
  RepoPath : String
  RepoName : String
  Branch : String
  IsNewRepo : Bool
  IsPrivate : Bool
  ForcePush : Bool
  CommitCount : Int
deriving DecidableEq

/-- The response of `PushToGitHub`. -/
structure PushRepoResponse where
  Success : Bool
  Message : String
  RepoURL : String
deriving DecidableEq

/-- Outcomes of the external calls made by one `PushToGitHub` invocation:
login state (`userInfo` present with a token), the session identity, the
result of `VerifyGitHubToken`, of `CreateGitHubRepo`, of `git remote add`,
and of the (up to two) pushes; the result of the branch deletion is recorded
but, like in the source, never inspected. -/
structure PushEnv where
  loggedIn : Bool
  username : String
  token : String
  verifyError : Option String
  createRepoResult : Except String GitHubRepo
  remoteAddOk : Bool
  firstPushOk : Bool
  deleteBranchOk : Bool
  secondPushOk : Bool

/-- External operations issued by `PushToGitHub`, in execution order. -/
inductive PushOp where
  | verifyToken
  | createRepo (name : String) (isPrivate : Bool)
  | gitRemoteAdd (url : String)
  | gitRemoteSetUrl (url : String)
  | gitPush (force : Bool) (refspec : String)
  | gitDeleteBranch (branch : String)
  | removeDir (path : String)
deriving DecidableEq

/-- Tail of `PushToGitHub` from the point where the remote name and URL are
known: configure the remote, push, and on rejection run the bounded
force-recovery sequence; each return path mirrors one `return` of the
source. -/
def pushAfterResolve (env : PushEnv) (req : PushRepoRequest)
    (opsIn : List PushOp) (repoURL actualRepoName : String) :
    List PushOp × PushRepoResponse :=
  let remoteURL :=
    if actualRepoName.contains '/' then
      "https://" ++ env.token ++ "@github.com/" ++ actualRepoName ++ ".git"
    else
      "https://" ++ env.token ++ "@github.com/" ++ env.username ++ "/" ++ actualRepoName ++ ".git"
  let ops := opsIn ++ [PushOp.gitRemoteAdd remoteURL]
    ++ (if env.remoteAddOk then [] else [PushOp.gitRemoteSetUrl remoteURL])
  let targetBranch := if req.Branch = "" then "main" else req.Branch
  let refspec := "main:" ++ targetBranch
  let ops := ops ++ [PushOp.gitPush req.ForcePush refspec]
  if env.firstPushOk then
    (ops ++ [PushOp.removeDir req.RepoPath],
     ⟨true, "成功推送 " ++ toString req.CommitCount ++ " 个提交到 " ++ actualRepoName, repoURL⟩)
  else if req.ForcePush then
    let ops := ops ++ [PushOp.gitDeleteBranch targetBranch, PushOp.gitPush false refspec]
    if env.secondPushOk then
      (ops ++ [PushOp.removeDir req.RepoPath],
       ⟨true, "成功推送 " ++ toString req.CommitCount ++ " 个提交到 " ++ actualRepoName, repoURL⟩)
    else
      (ops ++ [PushOp.removeDir req.RepoPath], ⟨false, "强制推送失败，请检查分支保护设置", ""⟩)
  else
    (ops ++ [PushOp.removeDir req.RepoPath], ⟨false, "推送失败，如果远程已有内容请勾选强制推送", ""⟩)

/-- The publish entry point `PushToGitHub` of github.go. -/
def pushToGitHub (env : PushEnv) (req : PushRepoRequest) : List PushOp × PushRepoResponse :=
  if env.loggedIn = false then ([], ⟨false, "未登录", ""⟩)
  else
    match env.verifyError with
    | some e => ([PushOp.verifyToken], ⟨false, "Token 验证失败: " ++ e, ""⟩)
    | none =>
      if req.IsNewRepo then
        match env.createRepoResult with
        | .error e =>
          ([PushOp.verifyToken, PushOp.createRepo req.RepoName req.IsPrivate],
           ⟨false, "创建 GitHub 仓库失败: " ++ e, ""⟩)
        | .ok repo =>
          pushAfterResolve env req
            [PushOp.verifyToken, PushOp.createRepo req.RepoName req.IsPrivate]
            repo.HTMLURL repo.Name
      else
        let actualRepoName := req.RepoName
        let repoURL :=
          if actualRepoName.contains '/' then "https://github.com/" ++ actualRepoName
          else "https://github.com/" ++ env.username ++ "/" ++ actualRepoName
        pushAfterResolve env req [PushOp.verifyToken] repoURL actualRepoName

/-- Decide whether an invocation reaches the push stage (login, token
verification and, for new repositories, remote creation all succeed). -/
def reachesPush (env : PushEnv) (req : PushRepoRequest) : Bool :=
  env.loggedIn && env.verifyError.isNone && (!req.IsNewRepo || env.createRepoResult.isOk)

/-- Test for the local-directory deletion operation. -/
def isRemoveDir : PushOp → Bool
  | .removeDir _ => true
  | _ => false

/-- Test for a push attempt. -/
def isGitPush : PushOp → Bool
  | .gitPush _ _ => true
  | _ => false

/-- Test for a remote branch deletion. -/
def isDeleteBranch : PushOp → Bool
  | .gitDeleteBranch _ => true
  | _ => false

/-! ## Observation functions and concrete scenario inputs

The following definitions do not translate source code; they observe the
embedded structures (projections, counters, well-formedness checks) and name
the concrete inputs used by scenarios, witnesses and counterexamples. -/

/-- Subtraction form of the cumulative walk: `walkCum ws pos cum` equals
`walkSub ws (pos - cum)` (proved below); the recursion is easier to reason
about. -/
def walkSub : List (String × Nat) → Nat → Option String
  | [], _ => none
  | (l, w) :: rest, pos => if pos < w then some l else walkSub rest (pos - w)

/-- Total weight attributed to one language by a weighted list (its computed
weight; for pairwise-distinct config languages this is the single entry's
weight). -/
def langWeight (ws : List (String × Nat)) (lang : String) : Nat :=
  ((ws.filter (fun e => e.1 = lang)).map Prod.snd).sum

/-- The commit records of a stream, in emission order. -/
def commitList (objs : List StreamObject) : List CommitObject :=
  objs.filterMap (fun o => match o with | .commit c => some c | _ => none)

/-- Committer timestamps of a stream, in emission order. -/
def commitSecs (objs : List StreamObject) : List Int :=
  (commitList objs).map CommitObject.committerSecs

/-- Commit messages of a stream, in emission order. -/
def commitMessages (objs : List StreamObject) : List String :=
  (commitList objs).map CommitObject.message

/-- Blob marks of a stream, in emission order. -/
def blobMarks (objs : List StreamObject) : List Nat :=
  objs.filterMap (fun o => match o with | .blob m _ => some m | _ => none)

/-- Check, scanning left to right with the list of already-defined marks,
that every blob's mark is strictly greater than all marks defined before it
(hence never reused) and that every commit references only already-defined
marks. -/
def marksOK : List StreamObject → List Nat → Bool
  | [], _ => true
  | .blob m _ :: rest, defined => defined.all (fun d => d < m) && marksOK rest (m :: defined)
  | .commit c :: rest, defined => c.files.all (fun f => defined.contains f.1) && marksOK rest defined
  | .done :: rest, defined => marksOK rest defined

/-- Marks defined after additionally scanning a stream segment (newest first). -/
def definedAfter (defined : List Nat) : List StreamObject → List Nat
  | [] => defined
  | .blob m _ :: rest => definedAfter (m :: defined) rest
  | _ :: rest => definedAfter defined rest

/-- Check that every commit's file bindings reference exactly the README mark
`:1` and the mark of the blob emitted immediately before it (`prev` is the
most recently defined blob mark). -/
def refsOK : Option Nat → List StreamObject → Bool
  | _, [] => true
  | _, .blob m _ :: rest => refsOK (some m) rest
  | prev, .commit c :: rest =>
    (match prev with
     | some m => decide (c.files.map Prod.fst = [1, m])
     | none => false) && refsOK prev rest
  | prev, .done :: rest => refsOK prev rest

/-- The most recently defined blob mark after scanning a stream segment. -/
def lastBlob (prev : Option Nat) : List StreamObject → Option Nat
  | [] => prev
  | .blob m _ :: rest => lastBlob (some m) rest
  | _ :: rest => lastBlob prev rest

/-- Midnight epoch of a date string, defaulting to 0 when unparseable (used
only under hypotheses guaranteeing parseability). -/
def dayBase (s : String) : Int :=
  (epochOfDate s).getD 0

/-- The timestamp ramp a sorted day list induces: for each day, its midnight
epoch plus `0, 1, ..., count-1` seconds. -/
def expectedSecs (days : List ContributionDay) : List Int :=
  days.flatMap (fun d =>
    (List.range d.Count.toNat).map (fun (j : Nat) => dayBase d.Date + (j : Int)))

/-- Numeric value of a big-endian ASCII digit string (used to relate Go's
byte-wise string order on dates to the calendar order). -/
def digitsToNat : List Char → Nat
  | [] => 0
  | c :: cs => digitVal c * 10 ^ cs.length + digitsToNat cs

/-- Number of `removeDir` operations in a push trace. -/
def removeDirCount (ops : List PushOp) : Nat :=
  ops.countP isRemoveDir

/-- Number of push attempts in a push trace. -/
def gitPushCount (ops : List PushOp) : Nat :=
  ops.countP isGitPush

/-- Number of remote branch deletions in a push trace. -/
def deleteBranchCount (ops : List PushOp) : Nat :=
  ops.countP isDeleteBranch

/-- Scenario B's language configuration: go and python, both ratio 50. -/
def scenarioBConfigs : List LanguageConfig :=
  [⟨"go", 50⟩, ⟨"python", 50⟩]

/-- Scenario A's request: one day, three commits, single-language markdown. -/
def scenarioARequest : GenerateRepoRequest :=
  ⟨2024, "alice", "alice@example.com", "demo", [⟨"2024-01-01", 3⟩], "markdown", [], false⟩

/-- Generation result of scenario A (fixed base path and temp suffix). -/
def scenarioAResult : Except String (GenerateRepoResponse × List StreamObject) :=
  (generateRepo "/tmp/green-wall" "t" scenarioARequest).2

/-- The stream of scenario A. -/
def scenarioAStream : List StreamObject :=
  match scenarioAResult with
  | .ok p => p.2
  | .error _ => []

/-- The response of scenario A. -/
def scenarioAResponse : GenerateRepoResponse :=
  match scenarioAResult with
  | .ok p => p.1
  | .error _ => ⟨"", 0⟩

/-- A request whose contribution list names the same date twice (accepted by
`GenerateRepo`: it neither deduplicates nor bounds counts). -/
def dupDatesRequest : GenerateRepoRequest :=
  ⟨2024, "alice", "alice@example.com", "demo",
   [⟨"2024-01-01", 2⟩, ⟨"2024-01-01", 1⟩], "markdown", [], false⟩

/-- Committer timestamps generated for `dupDatesRequest`. -/
def dupDatesSecs : List Int :=
  match (generateRepo "/tmp/green-wall" "t" dupDatesRequest).2 with
  | .ok p => commitSecs p.2
  | .error _ => []

/-- An environment in which the caller is logged in but token verification
fails; all later outcomes are irrelevant. -/
def envVerifyFail : PushEnv :=
  ⟨true, "alice", "tok", some "token 无效或已过期", .error "unused", true, true, true, true⟩

/-- An environment reaching the push stage in which the first push is
rejected, the branch deletion succeeds, and the second push is rejected too
(spec scenario D). -/
def envForceFail : PushEnv :=
  ⟨true, "alice", "tok", none, .error "unused", true, false, true, false⟩

/-- An environment reaching the push stage in which the first push is
rejected (spec scenario C, with the force flag unset in the request). -/
def envPushRejected : PushEnv :=
  ⟨true, "alice", "tok", none, .error "unused", true, false, true, true⟩

/-- A push request over an existing repository, force flag unset. -/
def pushReqPlain : PushRepoRequest :=
  ⟨"/tmp/green-wall/demo-t", "demo", "main", false, false, false, 3⟩

/-- A push request over an existing repository, force flag set. -/
def pushReqForce : PushRepoRequest :=
  ⟨"/tmp/green-wall/demo-t", "demo", "main", false, false, true, 3⟩

/-- A generation request with an empty contribution list (otherwise valid). -/
def emptyContribRequest : GenerateRepoRequest :=
  ⟨2024, "alice", "alice@example.com", "demo", [], "markdown", [], false⟩

/-! ## Lemmas about the weighted selector -/

/-- The cumulative walk of the source equals the subtraction-form walk. -/
theorem walkCum_eq_walkSub (ws : List (String × Nat)) :
    ∀ pos cum, cum ≤ pos → walkCum ws pos cum = walkSub ws (pos - cum) := by
  induction ws with
  | nil => intro pos cum _; rfl
  | cons e rest ih =>
    intro pos cum h
    obtain ⟨l, w⟩ := e
    simp only [walkCum, walkSub]
    by_cases h1 : pos < cum + w
    · rw [if_pos h1, if_pos (by omega)]
    · rw [if_neg h1, if_neg (by omega), ih pos (cum + w) (by omega)]
      congr 1
      omega

/-- A position below the total weight is always assigned a language. -/
theorem walkSub_some (ws : List (String × Nat)) :
    ∀ pos, pos < sumWeights ws → ∃ l, walkSub ws pos = some l := by
  induction ws with
  | nil => intro pos h; simp [sumWeights] at h
  | cons e rest ih =>
    intro pos h
    obtain ⟨l, w⟩ := e
    simp only [walkSub]
    by_cases h1 : pos < w
    · exact ⟨l, by rw [if_pos h1]⟩
    · have hrest : pos - w < sumWeights rest := by
        simp only [sumWeights, List.map_cons, List.sum_cons] at h
        simp only [sumWeights]
        omega
      obtain ⟨l', hl'⟩ := ih (pos - w) hrest
      exact ⟨l', by rw [if_neg h1]; exact hl'⟩

/-- Unfolding of `langWeight` at a cons cell. -/
theorem langWeight_cons (l : String) (w : Nat) (rest : List (String × Nat)) (lang : String) :
    langWeight ((l, w) :: rest) lang = (if l = lang then w else 0) + langWeight rest lang := by
  by_cases h : l = lang <;> simp [langWeight, List.filter_cons, h]

/-- Over the positions of one full cycle, each language is selected exactly
its total weight number of times. -/
theorem count_walkSub (dflt : String) (ws : List (String × Nat)) (lang : String) :
    ((List.range (sumWeights ws)).map (fun j => (walkSub ws j).getD dflt)).count lang
      = langWeight ws lang := by
  induction ws with
  | nil => simp [sumWeights, langWeight]
  | cons e rest ih =>
    obtain ⟨l, w⟩ := e
    have hsum : sumWeights ((l, w) :: rest) = w + sumWeights rest := by
      simp [sumWeights]
    rw [hsum, List.range_add, List.map_append, List.count_append]
    have h1 : (List.range w).map (fun j => (walkSub ((l, w) :: rest) j).getD dflt)
        = List.replicate w l := by
      rw [List.eq_replicate_iff]
      constructor
      · simp
      · intro b hb
        simp only [List.mem_map, List.mem_range] at hb
        obtain ⟨j, hj, hb⟩ := hb
        simp only [walkSub, if_pos hj, Option.getD_some] at hb
        exact hb.symm
    have h2 : (List.map (fun j => (walkSub ((l, w) :: rest) j).getD dflt) ((List.range (sumWeights rest)).map (w + ·)))
        = (List.range (sumWeights rest)).map (fun j => (walkSub rest j).getD dflt) := by
      rw [List.map_map]
      apply List.map_congr_left
      intro j _
      simp only [Function.comp]
      have : ¬ (w + j < w) := by omega
      rw [walkSub, if_neg this]
      congr 2
      omega
    rw [h1, h2, ih, langWeight_cons, List.count_replicate]
    by_cases h : l = lang <;> simp [h]

/-- Every compensated weight is at least 1. -/
theorem one_le_weightOfConfig (c : LanguageConfig) : 1 ≤ weightOfConfig c := by
  simp only [weightOfConfig]
  split <;> omega

/-- The weighted list is at most as long as its total weight. -/
theorem length_le_sumWeights (ws : List (String × Nat)) (h : ∀ e ∈ ws, 1 ≤ e.2) :
    ws.length ≤ sumWeights ws := by
  induction ws with
  | nil => simp [sumWeights]
  | cons e rest ih =>
    have he : 1 ≤ e.2 := h e (by simp)
    have := ih (fun x hx => h x (by simp [hx]))
    simp only [List.length_cons, sumWeights, List.map_cons, List.sum_cons] at *
    omega

/-- With at least two positive-ratio entries, the selector reduces to the
walk at `index mod totalWeight`. -/
theorem select_spec (configs : List LanguageConfig)
    (h2 : 2 ≤ (configs.filter (fun c => decide (0 < c.Ratio))).length) (idx : Nat) :
    selectLanguageByRatio configs idx
      = (walkSub (weightedConfigs configs) (idx % sumWeights (weightedConfigs configs))).getD "" := by
  have hlen : 2 ≤ (weightedConfigs configs).length := by
    simpa [weightedConfigs] using h2
  have hwpos : ∀ e ∈ weightedConfigs configs, 1 ≤ e.2 := by
    intro e he
    simp only [weightedConfigs, List.mem_map] at he
    obtain ⟨c, _, rfl⟩ := he
    exact one_le_weightOfConfig c
  have hsum : 0 < sumWeights (weightedConfigs configs) := by
    have := length_le_sumWeights _ hwpos
    omega
  have hlc : 2 ≤ configs.length := le_trans h2 (List.length_filter_le _ _)
  rcases configs with _ | ⟨c0, _ | ⟨c1, rest⟩⟩
  · simp at hlc
  · simp at hlc
  · simp only [selectLanguageByRatio]
    rw [if_neg (by
      simp only [not_or]
      refine ⟨by omega, ?_⟩
      intro h
      rw [h] at hlen
      simp at hlen)]
    have hpos : idx % sumWeights (weightedConfigs (c0 :: c1 :: rest))
        < sumWeights (weightedConfigs (c0 :: c1 :: rest)) := Nat.mod_lt _ hsum
    obtain ⟨l, hl⟩ := walkSub_some _ _ hpos
    rw [walkCum_eq_walkSub _ _ 0 (Nat.zero_le _), Nat.sub_zero, hl]
    simp [hl]

/-- Shared cycle lemma: over any aligned full cycle of `totalWeight`
consecutive indices, each language is selected exactly its total weight
number of times. -/
theorem cycle_count (configs : List LanguageConfig)
    (h2 : 2 ≤ (configs.filter (fun c => decide (0 < c.Ratio))).length) (cyc : Nat) (lang : String) :
    ((List.range (sumWeights (weightedConfigs configs))).map
        (fun j => selectLanguageByRatio configs (cyc * sumWeights (weightedConfigs configs) + j))).count lang
      = langWeight (weightedConfigs configs) lang := by
  have hcongr : (List.range (sumWeights (weightedConfigs configs))).map
      (fun j => selectLanguageByRatio configs (cyc * sumWeights (weightedConfigs configs) + j))
      = (List.range (sumWeights (weightedConfigs configs))).map
      (fun j => (walkSub (weightedConfigs configs) j).getD "") := by
    apply List.map_congr_left
    intro j hj
    rw [select_spec configs h2]
    congr 1
    rw [Nat.mul_comm, Nat.mul_add_mod, Nat.mod_eq_of_lt (List.mem_range.mp hj)]
  rw [hcongr, count_walkSub]

/-! ## Claims C2 and C3: the weighted selector -/

/-- C2: for every language-config list with at least two positive-ratio
entries and every non-negative commit index, `selectLanguageByRatio` is
deterministic (equal (configs, index) inputs always return the same
language), and over one full cycle of `totalWeight` consecutive indices
(`cyc * totalWeight .. (cyc+1) * totalWeight - 1` for any `cyc`) each
language is returned exactly its computed weight number of times
(`langWeight` — the weight its positive-ratio entries contribute to the
compensated weighted list). -/
theorem c2_selector_deterministic_and_cycle_fair
    (configs : List LanguageConfig)
    (h2 : 2 ≤ (configs.filter (fun c => decide (0 < c.Ratio))).length) (cyc : Nat) :
    (∀ i j : Nat, i = j → selectLanguageByRatio configs i = selectLanguageByRatio configs j) ∧
    (∀ lang : String,
      ((List.range (sumWeights (weightedConfigs configs))).map
          (fun j => selectLanguageByRatio configs
            (cyc * sumWeights (weightedConfigs configs) + j))).count lang
        = langWeight (weightedConfigs configs) lang) :=
  ⟨fun _ _ h => by rw [h], fun lang => cycle_count configs h2 cyc lang⟩

/-- Witness for C2 at scenario B's configuration and the first cycle. -/
theorem c2_selector_witness :
    2 ≤ (scenarioBConfigs.filter (fun c => decide (0 < c.Ratio))).length ∧
    ((∀ i j : Nat, i = j →
        selectLanguageByRatio scenarioBConfigs i = selectLanguageByRatio scenarioBConfigs j) ∧
     (∀ lang : String,
       ((List.range (sumWeights (weightedConfigs scenarioBConfigs))).map
           (fun j => selectLanguageByRatio scenarioBConfigs
             (0 * sumWeights (weightedConfigs scenarioBConfigs) + j))).count lang
         = langWeight (weightedConfigs scenarioBConfigs) lang)) :=
  ⟨by decide, c2_selector_deterministic_and_cycle_fair scenarioBConfigs (by decide) 0⟩

/-- C3: every positive-ratio config's selection weight is
`max 1 (ratio * 10000 / averageBytes(language))` with truncating integer
division over the static table `getLanguageCodeBytes`; in particular, for
configs go/python at ratio 50 with 850 and 650 average bytes, the computed
weights are 588 and 769, the cycle length is 1357, and over one full cycle
python is selected 769 times and go 588 times. -/
theorem c3_weight_formula_and_scenario_b :
    (∀ (lang : String) (ratio : Int), 0 < ratio →
      weightOfConfig ⟨lang, ratio⟩ = max 1 (ratio.toNat * 10000 / getLanguageCodeBytes lang)) ∧
    getLanguageCodeBytes "go" = 850 ∧
    getLanguageCodeBytes "python" = 650 ∧
    weightedConfigs scenarioBConfigs = [("go", 588), ("python", 769)] ∧
    sumWeights (weightedConfigs scenarioBConfigs) = 1357 ∧
    ((List.range 1357).map (fun j => selectLanguageByRatio scenarioBConfigs j)).count "python" = 769 ∧
    ((List.range 1357).map (fun j => selectLanguageByRatio scenarioBConfigs j)).count "go" = 588 := by
  have hT : sumWeights (weightedConfigs scenarioBConfigs) = 1357 := by decide
  have hcount : ∀ lang : String,
      ((List.range 1357).map (fun j => selectLanguageByRatio scenarioBConfigs j)).count lang
        = langWeight (weightedConfigs scenarioBConfigs) lang := by
    intro lang
    have h := cycle_count scenarioBConfigs (by decide) 0 lang
    simp only [Nat.zero_mul, Nat.zero_add, hT] at h
    exact h
  refine ⟨?_, by decide, by decide, by decide, hT, ?_, ?_⟩
  · intro lang ratio _
    simp only [weightOfConfig, Nat.max_def]
    split <;> split <;> omega
  · rw [hcount "python"]
    decide
  · rw [hcount "go"]
    decide

/-- Witness for C3's weight formula at the go entry of scenario B. -/
theorem c3_weight_formula_witness :
    (0 : Int) < 50 ∧
    weightOfConfig ⟨"go", (50 : Int)⟩
      = max 1 ((50 : Int).toNat * 10000 / getLanguageCodeBytes "go") :=
  ⟨by decide, c3_weight_formula_and_scenario_b.1 "go" 50 (by decide)⟩

/-! ## Claims C8 and C9: normalizer and validation -/

/-- C8 is corrected: the rescale formula holds exactly as claimed whenever
the ratio sum is nonzero, but at a nonzero-length list whose ratios sum to 0
(outside the tolerance band) the Go code divides by zero instead of
returning a list; see the counterexample below. -/
theorem c8_normalize_amended (configs : List LanguageConfig) (hne : configs ≠ []) :
    ((95 ≤ (configs.map LanguageConfig.Ratio).sum ∧ (configs.map LanguageConfig.Ratio).sum ≤ 105) →
      normalizeLanguageConfigs configs = some configs) ∧
    (¬(95 ≤ (configs.map LanguageConfig.Ratio).sum ∧ (configs.map LanguageConfig.Ratio).sum ≤ 105) →
      (configs.map LanguageConfig.Ratio).sum ≠ 0 →
      normalizeLanguageConfigs configs
        = some (configs.map (fun c =>
            ⟨c.Language, Int.tdiv (c.Ratio * 100) ((configs.map LanguageConfig.Ratio).sum)⟩))) := by
  rcases configs with _ | ⟨a, rest⟩
  · exact absurd rfl hne
  · constructor
    · intro hin
      simp only [normalizeLanguageConfigs, if_pos hin]
    · intro hout hnz
      simp only [normalizeLanguageConfigs, if_neg hout, if_neg hnz]

/-- C8 counterexample: the single-entry list with ratio 0 has sum 0, outside
the tolerance band; the code reaches `ratio * 100 / 0`, a Go integer
division by zero (runtime panic), so no rescaled list is returned. -/
theorem c8_normalize_counterexample :
    normalizeLanguageConfigs [⟨"go", 0⟩] = none := by
  decide

/-- Witness for C8 at scenario E's configuration (sum 130): each ratio 65 is
rescaled to `65 * 100 / 130 = 50`. -/
theorem c8_normalize_witness :
    ([⟨"go", (65 : Int)⟩, ⟨"python", 65⟩] : List LanguageConfig) ≠ [] ∧
    normalizeLanguageConfigs [⟨"go", 65⟩, ⟨"python", 65⟩]
      = some [⟨"go", 50⟩, ⟨"python", 50⟩] := by
  refine ⟨by decide, ?_⟩
  have h := (c8_normalize_amended [⟨"go", 65⟩, ⟨"python", 65⟩] (by decide)).2
    (by decide) (by decide)
  rw [h]
  decide

/-- The per-entry validation loop succeeds exactly on well-formed entries,
and then returns the accumulated ratio sum. -/
theorem validateLoop_spec : ∀ (cfgs : List LanguageConfig) (i : Nat) (t : Int),
    ((validateLoop cfgs i t).1 = none ↔
      ∀ c ∈ cfgs, c.Language ≠ "" ∧ 0 ≤ c.Ratio ∧ c.Ratio ≤ 100) ∧
    ((validateLoop cfgs i t).1 = none →
      (validateLoop cfgs i t).2 = t + (cfgs.map LanguageConfig.Ratio).sum) := by
  intro cfgs
  induction cfgs with
  | nil => intro i t; simp [validateLoop]
  | cons c rest ih =>
    intro i t
    by_cases h1 : c.Language = ""
    · simp [validateLoop, h1]
    · by_cases h2 : c.Ratio < 0
      · simp only [validateLoop, if_neg h1, if_pos h2]
        simp only [List.mem_cons]
        constructor
        · constructor
          · intro h; exact absurd h (by simp)
          · intro h
            have := (h c (Or.inl rfl)).2.1
            omega
        · intro h; exact absurd h (by simp)
      · by_cases h3 : 100 < c.Ratio
        · simp only [validateLoop, if_neg h1, if_neg h2, if_pos h3]
          simp only [List.mem_cons]
          constructor
          · constructor
            · intro h; exact absurd h (by simp)
            · intro h
              have := (h c (Or.inl rfl)).2.2
              omega
          · intro h; exact absurd h (by simp)
        · simp only [validateLoop, if_neg h1, if_neg h2, if_neg h3]
          obtain ⟨ihiff, ihsum⟩ := ih (i + 1) (t + c.Ratio)
          constructor
          · rw [ihiff]
            simp only [List.mem_cons]
            constructor
            · intro h
              intro x hx
              rcases hx with rfl | hx
              · exact ⟨h1, by omega, by omega⟩
              · exact h x hx
            · intro h x hx
              exact h x (Or.inr hx)
          · intro h
            rw [ihsum h]
            simp only [List.map_cons, List.sum_cons]
            ring

/-- C9: `validateLanguageConfigs` errors exactly when the list is empty,
some identifier is empty, some ratio is negative or above 100, or the ratio
sum is 0; and `GenerateRepo` rejects an empty contribution list, a negative
day count, or a zero total with an error before recording any local
operation (in particular before any directory or file creation; the
embedding of `GenerateRepo` performs no remote operation at all). -/
theorem c9_validation_complete_and_effect_free :
    (∀ configs : List LanguageConfig,
      (validateLanguageConfigs configs).isSome = true ↔
        (configs = [] ∨ (∃ c ∈ configs, c.Language = "") ∨ (∃ c ∈ configs, c.Ratio < 0) ∨
          (∃ c ∈ configs, 100 < c.Ratio) ∨ (configs.map LanguageConfig.Ratio).sum = 0)) ∧
    (∀ (bp ts : String) (req : GenerateRepoRequest),
      (req.Contributions = [] ∨ (∃ c ∈ req.Contributions, c.Count < 0) ∨
        (req.Contributions.map ContributionDay.Count).sum = 0) →
      (generateRepo bp ts req).1 = [] ∧ ∃ e, (generateRepo bp ts req).2 = .error e) := by
  constructor
  · intro configs
    rcases configs with _ | ⟨a, rest⟩
    · simp [validateLanguageConfigs]
    · obtain ⟨hiff, hsum⟩ := validateLoop_spec (a :: rest) 0 0
      simp only [validateLanguageConfigs]
      rcases hpair : validateLoop (a :: rest) 0 0 with ⟨err, total⟩
      have h1 : (validateLoop (a :: rest) 0 0).1 = err := by rw [hpair]
      have h2 : (validateLoop (a :: rest) 0 0).2 = total := by rw [hpair]
      rcases err with _ | e
      · have hgood := hiff.mp h1
        have htot := hsum h1
        rw [h2] at htot
        by_cases hz : total = 0
        · simp only [if_pos hz, Option.isSome_some, true_iff]
          right; right; right; right
          omega
        · simp only [if_neg hz, Option.isSome_none, Bool.false_eq_true, false_iff]
          push_neg
          refine ⟨by simp, ?_, ?_, ?_, by omega⟩
          · intro c hc; exact (hgood c hc).1
          · intro c hc; have := (hgood c hc).2.1; omega
          · intro c hc; have := (hgood c hc).2.2; omega
      · simp only [Option.isSome_some, true_iff]
        have hnall : ¬ ∀ c ∈ (a :: rest), c.Language ≠ "" ∧ 0 ≤ c.Ratio ∧ c.Ratio ≤ 100 := by
          intro hall
          have := hiff.mpr hall
          rw [h1] at this
          exact absurd this (by simp)
        push_neg at hnall
        obtain ⟨c, hc, hbad⟩ := hnall
        by_cases hL : c.Language = ""
        · exact Or.inr (Or.inl ⟨c, hc, hL⟩)
        · by_cases hRneg : c.Ratio < 0
          · exact Or.inr (Or.inr (Or.inl ⟨c, hc, hRneg⟩))
          · right; right; right; left
            refine ⟨c, hc, ?_⟩
            have := hbad hL
            omega
  · intro bp ts req hrej
    rcases hres : resolveConfigs req with e | cfgs
    · simp [generateRepo, hres]
    · by_cases hemp : req.Contributions = []
      · simp [generateRepo, hres, hemp]
      · rcases hfind : req.Contributions.find? (fun c => decide (c.Count < 0)) with _ | day
        · by_cases hz : (req.Contributions.map ContributionDay.Count).sum = 0
          · simp [generateRepo, hres, hemp, hfind, hz]
          · exfalso
            rcases hrej with h | ⟨c, hc, hneg⟩ | h
            · exact hemp h
            · have := List.find?_eq_none.mp hfind c hc
              simp at this
              omega
            · exact hz h
        · simp [generateRepo, hres, hemp, hfind]

/-- Witness for C9's rejection clause at an empty contribution list. -/
theorem c9_validation_witness :
    (emptyContribRequest.Contributions = [] ∨
      (∃ c ∈ emptyContribRequest.Contributions, c.Count < 0) ∨
      (emptyContribRequest.Contributions.map ContributionDay.Count).sum = 0) ∧
    ((generateRepo "/tmp/green-wall" "t" emptyContribRequest).1 = [] ∧
      ∃ e, (generateRepo "/tmp/green-wall" "t" emptyContribRequest).2 = .error e) :=
  ⟨Or.inl rfl,
   c9_validation_complete_and_effect_free.2 "/tmp/green-wall" "t" emptyContribRequest (Or.inl rfl)⟩

/-! ## Claim C10: the template factory -/

/-- Character codes in the lower-case ASCII range survive `Char.ofNat`. -/
theorem ofNat_toNat_lower (n : Nat) (h1 : 97 ≤ n) (h2 : n ≤ 122) :
    (Char.ofNat n).toNat = n := by
  interval_cases n <;> decide

/-- ASCII lower-casing is idempotent. -/
theorem toLowerChar_idem (c : Char) : toLowerChar (toLowerChar c) = toLowerChar c := by
  by_cases h : 65 ≤ c.toNat ∧ c.toNat ≤ 90
  · have h1 : toLowerChar c = Char.ofNat (c.toNat + 32) := by
      rw [toLowerChar, if_pos h]
    have hval : (Char.ofNat (c.toNat + 32)).toNat = c.toNat + 32 :=
      ofNat_toNat_lower _ (by omega) (by omega)
    rw [h1, toLowerChar, hval, if_neg (by omega)]
  · have h1 : toLowerChar c = c := by rw [toLowerChar, if_neg h]
    rw [h1, h1]

/-- The ASCII fragment of `strings.ToLower` is idempotent. -/
theorem goToLower_idem (s : String) : goToLower (goToLower s) = goToLower s := by
  simp only [goToLower, List.map_map]
  congr 1
  apply List.map_congr_left
  intro c _
  simp only [Function.comp]
  exact toLowerChar_idem c

/-- C10: `GetLanguageTemplate` totally resolves every identifier — it
lower-cases its argument, so lookup is case-insensitive
(`GetLanguageTemplate s = GetLanguageTemplate (toLower s)`), and every
identifier whose lower-casing matches none of the twenty registered
identifiers resolves to the Markdown template; consequently the stream
builder's lookup (a total function here) never fails for any language the
selector returns. -/
theorem c10_factory_total_and_case_insensitive (s : String) :
    getLanguageTemplate s = getLanguageTemplate (goToLower s) ∧
    (goToLower s ∉ getAllLanguages → getLanguageTemplate s = TemplateTag.markdown) := by
  constructor
  · simp only [getLanguageTemplate, goToLower_idem]
  · intro hnot
    simp only [getAllLanguages, List.mem_cons, List.not_mem_nil, or_false] at hnot
    push_neg at hnot
    obtain ⟨h1, h2, h3, h4, h5, h6, h7, h8, h9, h10, h11, h12, h13, h14, h15, h16, h17, h18, h19, h20⟩ := hnot
    simp only [getLanguageTemplate, if_neg h1, if_neg h2, if_neg h3, if_neg h4, if_neg h5,
      if_neg h6, if_neg h7, if_neg h8, if_neg h9, if_neg h10, if_neg h11, if_neg h12,
      if_neg h13, if_neg h14, if_neg h15, if_neg h16, if_neg h17, if_neg h18, if_neg h19,
      if_neg h20]

/-- Witness for C10 at the unregistered identifier "COBOL". -/
theorem c10_factory_witness :
    getLanguageTemplate "COBOL" = getLanguageTemplate (goToLower "COBOL") ∧
    goToLower "COBOL" ∉ getAllLanguages ∧
    getLanguageTemplate "COBOL" = TemplateTag.markdown :=
  ⟨(c10_factory_total_and_case_insensitive "COBOL").1, by decide,
   (c10_factory_total_and_case_insensitive "COBOL").2 (by decide)⟩

/-! ## Claims C1 and C7: the publish state machine -/

/-- C1 is corrected: the ephemeral directory is deleted exactly once on every
invocation that reaches the push stage (push success, non-force rejection,
force-path recovery success, force-path final failure), and never on the
earlier exits (not logged in, token-verification failure, remote-repository
creation failure) — on those paths the claimed unconditional deletion does
not happen (see the counterexample). -/
theorem c1_cleanup_amended (env : PushEnv) (req : PushRepoRequest) :
    removeDirCount (pushToGitHub env req).1
      = (if reachesPush env req then 1 else 0) := by
  obtain ⟨lg, un, tk, ve, cr, ra, p1, db, p2⟩ := env
  obtain ⟨rp, rn, br, inew, ipriv, fp, cc⟩ := req
  cases lg <;> cases ve <;> cases cr <;> cases inew <;> cases ra <;> cases p1 <;> cases fp <;>
      cases p2 <;>
    simp [pushToGitHub, pushAfterResolve, reachesPush, removeDirCount, Except.isOk,
      Except.toBool, List.countP_append, List.countP_cons, isRemoveDir]

/-- C1 counterexample: a logged-in invocation whose token verification fails
returns (success = false) without ever deleting the local ephemeral
directory, refuting the claim that the deletion happens on every exit path
including token-verification failure. -/
theorem c1_cleanup_counterexample :
    (pushToGitHub envVerifyFail pushReqPlain).2.Success = false ∧
    removeDirCount (pushToGitHub envVerifyFail pushReqPlain).1 = 0 := by
  constructor <;> rfl

/-- C7: every invocation issues at most two push attempts and at most one
remote branch deletion; a rejected push with the force flag unset triggers
no branch deletion and no retry and yields success = false; with the force
flag set, if the second push also fails the result is a final failure whose
message suggests checking branch protection, after exactly two pushes and
one deletion. -/
theorem c7_push_bounded (env : PushEnv) (req : PushRepoRequest) :
    gitPushCount (pushToGitHub env req).1 ≤ 2 ∧
    deleteBranchCount (pushToGitHub env req).1 ≤ 1 ∧
    (reachesPush env req = true → env.firstPushOk = false → req.ForcePush = false →
      gitPushCount (pushToGitHub env req).1 = 1 ∧
      deleteBranchCount (pushToGitHub env req).1 = 0 ∧
      (pushToGitHub env req).2.Success = false ∧
      (pushToGitHub env req).2.Message = "推送失败，如果远程已有内容请勾选强制推送") ∧
    (reachesPush env req = true → env.firstPushOk = false → req.ForcePush = true →
      env.secondPushOk = false →
      gitPushCount (pushToGitHub env req).1 = 2 ∧
      deleteBranchCount (pushToGitHub env req).1 = 1 ∧
      (pushToGitHub env req).2.Success = false ∧
      (pushToGitHub env req).2.Message = "强制推送失败，请检查分支保护设置") := by
  obtain ⟨lg, un, tk, ve, cr, ra, p1, db, p2⟩ := env
  obtain ⟨rp, rn, br, inew, ipriv, fp, cc⟩ := req
  cases lg <;> cases ve <;> cases cr <;> cases inew <;> cases ra <;> cases p1 <;> cases fp <;>
      cases p2 <;>
    simp [pushToGitHub, pushAfterResolve, reachesPush, gitPushCount, deleteBranchCount,
      Except.isOk, Except.toBool, List.countP_append, List.countP_cons, isGitPush,
      isDeleteBranch]

/-- Witness for C7 at spec scenario D: force flag set, first push rejected,
branch deletion succeeds, second push rejected. -/
theorem c7_push_witness :
    reachesPush envForceFail pushReqForce = true ∧
    envForceFail.firstPushOk = false ∧ pushReqForce.ForcePush = true ∧
    envForceFail.secondPushOk = false ∧
    (gitPushCount (pushToGitHub envForceFail pushReqForce).1 = 2 ∧
     deleteBranchCount (pushToGitHub envForceFail pushReqForce).1 = 1 ∧
     (pushToGitHub envForceFail pushReqForce).2.Success = false ∧
     (pushToGitHub envForceFail pushReqForce).2.Message = "强制推送失败，请检查分支保护设置") :=
  ⟨rfl, rfl, rfl, rfl,
   (c7_push_bounded envForceFail pushReqForce).2.2.2 rfl rfl rfl rfl⟩

/-! ## Order properties of Go string comparison -/

/-- Characters with equal code points are equal. -/
theorem char_toNat_inj {a b : Char} (h : a.toNat = b.toNat) : a = b := by
  have ha := Char.ofNat_toNat a
  have hb := Char.ofNat_toNat b
  rw [← ha, ← hb, h]

/-- Go string `<` is asymmetric. -/
theorem charListLt_asymm : ∀ a b : List Char, charListLt a b = true → charListLt b a = false := by
  intro a
  induction a with
  | nil =>
    intro b h
    cases b with
    | nil => simp [charListLt] at h
    | cons y ys => simp [charListLt]
  | cons x xs ih =>
    intro b h
    cases b with
    | nil => simp [charListLt] at h
    | cons y ys =>
      simp only [charListLt] at h ⊢
      by_cases h1 : x.toNat < y.toNat
      · rw [if_neg (by omega), if_pos h1]
      · by_cases h2 : y.toNat < x.toNat
        · rw [if_neg h1, if_pos h2] at h
          exact absurd h (by simp)
        · rw [if_neg h1, if_neg h2] at h
          rw [if_neg h2, if_neg h1]
          exact ih ys h

/-- Two strings neither of which is below the other are equal. -/
theorem charListLt_eq_of_not : ∀ a b : List Char,
    charListLt a b = false → charListLt b a = false → a = b := by
  intro a
  induction a with
  | nil =>
    intro b h1 _
    cases b with
    | nil => rfl
    | cons y ys => simp [charListLt] at h1
  | cons x xs ih =>
    intro b h1 h2
    cases b with
    | nil => simp [charListLt] at h2
    | cons y ys =>
      simp only [charListLt] at h1 h2
      by_cases hxy : x.toNat < y.toNat
      · rw [if_pos hxy] at h1
        exact absurd h1 (by simp)
      · by_cases hyx : y.toNat < x.toNat
        · rw [if_pos hyx] at h2
          exact absurd h2 (by simp)
        · rw [if_neg hxy, if_neg hyx] at h1
          rw [if_neg hyx, if_neg hxy] at h2
          have : x = y := char_toNat_inj (by omega)
          rw [this, ih ys h1 h2]

/-- Go string `<` is transitive. -/
theorem charListLt_trans : ∀ a b c : List Char,
    charListLt a b = true → charListLt b c = true → charListLt a c = true := by
  intro a
  induction a with
  | nil =>
    intro b c h1 h2
    cases b with
    | nil => simp [charListLt] at h1
    | cons y ys =>
      cases c with
      | nil => simp [charListLt] at h2
      | cons z zs => simp [charListLt]
  | cons x xs ih =>
    intro b c h1 h2
    cases b with
    | nil => simp [charListLt] at h1
    | cons y ys =>
      cases c with
      | nil => simp [charListLt] at h2
      | cons z zs =>
        simp only [charListLt] at h1 h2 ⊢
        by_cases hxy : x.toNat < y.toNat
        · by_cases hyz : y.toNat < z.toNat
          · rw [if_pos (by omega)]
          · by_cases hzy : z.toNat < y.toNat
            · rw [if_neg hyz, if_pos hzy] at h2
              exact absurd h2 (by simp)
            · rw [if_pos (by omega)]
        · by_cases hyx : y.toNat < x.toNat
          · rw [if_neg hxy, if_pos hyx] at h1
            exact absurd h1 (by simp)
          · rw [if_neg hxy, if_neg hyx] at h1
            by_cases hyz : y.toNat < z.toNat
            · rw [if_pos (by omega)]
            · by_cases hzy : z.toNat < y.toNat
              · rw [if_neg hyz, if_pos hzy] at h2
                exact absurd h2 (by simp)
              · rw [if_neg hyz, if_neg hzy] at h2
                rw [if_neg (by omega), if_neg (by omega)]
                exact ih ys zs h1 h2

/-! ## Digit blocks: byte-wise string order versus numeric order -/

/-- A digit string of length `n` denotes a value below `10 ^ n`. -/
theorem digitsToNat_lt (cs : List Char) (h : ∀ c ∈ cs, isDigitChar c = true) :
    digitsToNat cs < 10 ^ cs.length := by
  induction cs with
  | nil => simp [digitsToNat]
  | cons c cs ih =>
    have hc := h c (by simp)
    have hcs := ih (fun x hx => h x (by simp [hx]))
    have hv : digitVal c ≤ 9 := by
      simp [isDigitChar] at hc
      simp only [digitVal]
      omega
    simp only [digitsToNat, List.length_cons, pow_succ]
    calc digitVal c * 10 ^ cs.length + digitsToNat cs
        < (digitVal c + 1) * 10 ^ cs.length := by
          have : (digitVal c + 1) * 10 ^ cs.length
              = digitVal c * 10 ^ cs.length + 10 ^ cs.length := by ring
          omega
      _ ≤ 10 * 10 ^ cs.length := Nat.mul_le_mul_right _ (by omega)
      _ = 10 ^ cs.length * 10 := by ring

/-- Strictly smaller leading digit means strictly smaller block value. -/
theorem digit_block_lt {vx vy ax ay P : Nat} (hax : ax < P) (hv : vx < vy) :
    vx * P + ax < vy * P + ay := by
  have h1 : (vx + 1) * P = vx * P + P := by ring
  have h2 : (vx + 1) * P ≤ vy * P := Nat.mul_le_mul_right P (by omega)
  omega

/-- Comparison below equal heads reduces to the tails. -/
theorem charListLt_cons_same (c : Char) (r1 r2 : List Char) :
    charListLt (c :: r1) (c :: r2) = charListLt r1 r2 := by
  simp only [charListLt]
  rw [if_neg (by omega), if_neg (by omega)]

/-- Byte-wise comparison of equal-length digit blocks followed by arbitrary
tails agrees with numeric comparison of the blocks, falling through to the
tails on equality. -/
theorem charListLt_append (xs : List Char) : ∀ (ys r1 r2 : List Char),
    xs.length = ys.length →
    (∀ c ∈ xs, isDigitChar c = true) → (∀ c ∈ ys, isDigitChar c = true) →
    charListLt (xs ++ r1) (ys ++ r2)
      = (if digitsToNat xs < digitsToNat ys then true
         else if digitsToNat ys < digitsToNat xs then false
         else charListLt r1 r2) := by
  induction xs with
  | nil =>
    intro ys r1 r2 hlen _ _
    have hy : ys = [] := by
      cases ys with
      | nil => rfl
      | cons y ys => simp at hlen
    subst hy
    simp [digitsToNat]
  | cons x xs ih =>
    intro ys r1 r2 hlen hx hy
    cases ys with
    | nil => simp at hlen
    | cons y ys =>
      have hlen' : xs.length = ys.length := by simpa using hlen
      have hx' : ∀ c ∈ xs, isDigitChar c = true := fun c hc => hx c (by simp [hc])
      have hy' : ∀ c ∈ ys, isDigitChar c = true := fun c hc => hy c (by simp [hc])
      have hxd : 48 ≤ x.toNat ∧ x.toNat ≤ 57 := by
        have := hx x (by simp); simpa [isDigitChar] using this
      have hyd : 48 ≤ y.toNat ∧ y.toNat ≤ 57 := by
        have := hy y (by simp); simpa [isDigitChar] using this
      have hax : digitsToNat xs < 10 ^ xs.length := digitsToNat_lt xs hx'
      have hay : digitsToNat ys < 10 ^ xs.length := by
        have := digitsToNat_lt ys hy'
        rw [← hlen'] at this
        exact this
      simp only [List.cons_append, charListLt, digitsToNat, ← hlen', List.append_eq]
      rw [ih ys r1 r2 hlen' hx' hy']
      by_cases hxy : x.toNat < y.toNat
      · have hvv : digitVal x < digitVal y := by simp only [digitVal]; omega
        rw [if_pos hxy, if_pos (digit_block_lt hax hvv)]
      · by_cases hyx : y.toNat < x.toNat
        · have hvv : digitVal y < digitVal x := by simp only [digitVal]; omega
          have hba : digitVal y * 10 ^ xs.length + digitsToNat ys
              < digitVal x * 10 ^ xs.length + digitsToNat xs := digit_block_lt hay hvv
          rw [if_neg hxy, if_pos hyx, if_neg (by omega), if_pos hba]
        · have hvv : digitVal x = digitVal y := by simp only [digitVal]; omega
          rw [if_neg hxy, if_neg hyx, hvv]
          have e1 : (digitVal y * 10 ^ xs.length + digitsToNat xs
              < digitVal y * 10 ^ xs.length + digitsToNat ys) ↔ (digitsToNat xs < digitsToNat ys) := by
            omega
          have e2 : (digitVal y * 10 ^ xs.length + digitsToNat ys
              < digitVal y * 10 ^ xs.length + digitsToNat xs) ↔ (digitsToNat ys < digitsToNat xs) := by
            omega
          rw [if_congr e1 rfl rfl, if_congr e2 rfl rfl]

/-! ## Parsed dates: shape, ordering bridge, calendar monotonicity -/

/-- A successfully parsed date string has the ten-character `YYYY-MM-DD`
shape with digit blocks denoting the parsed year, month and day, and the
parsed values satisfy the calendar validity bounds. -/
theorem parseDateChars_shape {cs : List Char} {y m d : Nat}
    (h : parseDateChars cs = some (y, m, d)) :
    ∃ y1 y2 y3 y4 m1 m2 d1 d2,
      cs = [y1, y2, y3, y4, '-', m1, m2, '-', d1, d2] ∧
      (∀ c ∈ [y1, y2, y3, y4], isDigitChar c = true) ∧
      (∀ c ∈ [m1, m2], isDigitChar c = true) ∧
      (∀ c ∈ [d1, d2], isDigitChar c = true) ∧
      y = digitsToNat [y1, y2, y3, y4] ∧
      m = digitsToNat [m1, m2] ∧
      d = digitsToNat [d1, d2] ∧
      1 ≤ m ∧ m ≤ 12 ∧ 1 ≤ d ∧ d ≤ daysInMonth y m := by
  match cs, h with
  | [c1, c2, c3, c4, c5, c6, c7, c8, c9, c10], h => ?_
  case _ =>
    simp only [parseDateChars] at h
    split_ifs at h with hA hB
    obtain ⟨hd1, hd2, hy1, hy2, hy3, hy4, hm1, hm2, hdd1, hdd2⟩ := hA
    obtain ⟨hm, hm', hd, hd'⟩ := hB
    injection h with h
    injection h with hy hmd
    injection hmd with hm2' hd2'
    subst hd1
    subst hd2
    refine ⟨c1, c2, c3, c4, c6, c7, c9, c10, rfl, ?_, ?_, ?_, ?_, ?_, ?_, ?_, ?_, ?_, ?_⟩
    · intro c hc
      simp only [List.mem_cons, List.not_mem_nil, or_false] at hc
      rcases hc with rfl | rfl | rfl | rfl <;> assumption
    · intro c hc
      simp only [List.mem_cons, List.not_mem_nil, or_false] at hc
      rcases hc with rfl | rfl <;> assumption
    · intro c hc
      simp only [List.mem_cons, List.not_mem_nil, or_false] at hc
      rcases hc with rfl | rfl <;> assumption
    · rw [← hy]
      simp only [digitsToNat, List.length_cons, List.length_nil]
      ring
    · rw [← hm2']
      simp only [digitsToNat, List.length_cons, List.length_nil]
      ring
    · rw [← hd2']
      simp only [digitsToNat, List.length_cons, List.length_nil]
      ring
    · omega
    · omega
    · omega
    · rw [← hy, ← hm2', ← hd2'] at *
      exact hd'

/-- Go's byte-wise `<` on two parseable date strings is exactly the
lexicographic year/month/day order of the parsed values. -/
theorem goStringLt_dates {s1 s2 : String} {p1 p2 : Nat × Nat × Nat}
    (h1 : parseDate s1 = some p1) (h2 : parseDate s2 = some p2) :
    goStringLt s1 s2 = true ↔
      (p1.1 < p2.1 ∨ (p1.1 = p2.1 ∧ (p1.2.1 < p2.2.1 ∨
        (p1.2.1 = p2.2.1 ∧ p1.2.2 < p2.2.2)))) := by
  obtain ⟨y1, y2, y3, y4, m1, m2, d1, d2, hcs1, hdy1, hdm1, hdd1, hy1, hm1, hd1, _⟩ :=
    @parseDateChars_shape s1.data p1.1 p1.2.1 p1.2.2 h1
  obtain ⟨z1, z2, z3, z4, n1, n2, e1, e2, hcs2, hdy2, hdm2, hdd2, hy2, hm2, hd2, _⟩ :=
    @parseDateChars_shape s2.data p2.1 p2.2.1 p2.2.2 h2
  have hsplit1 : s1.data = [y1, y2, y3, y4] ++ ('-' :: ([m1, m2] ++ ('-' :: ([d1, d2] ++ ([] : List Char))))) := by
    rw [hcs1]; rfl
  have hsplit2 : s2.data = [z1, z2, z3, z4] ++ ('-' :: ([n1, n2] ++ ('-' :: ([e1, e2] ++ ([] : List Char))))) := by
    rw [hcs2]; rfl
  rw [goStringLt, hsplit1, hsplit2,
    charListLt_append _ _ _ _ (by rfl) hdy1 hdy2, charListLt_cons_same,
    charListLt_append _ _ _ _ (by rfl) hdm1 hdm2, charListLt_cons_same,
    charListLt_append _ _ _ _ (by rfl) hdd1 hdd2]
  rw [← hy1, ← hy2, ← hm1, ← hm2, ← hd1, ← hd2]
  simp only [charListLt]
  split_ifs <;> simp_all <;> omega

/-- Days before a month grow with the month. -/
theorem daysBeforeMonth_mono (y : Nat) : ∀ m1 m2 : Nat, m1 ≤ m2 →
    daysBeforeMonth y m1 ≤ daysBeforeMonth y m2 := by
  intro m1 m2 h
  induction m2 with
  | zero =>
    have : m1 = 0 := by omega
    subst this
    exact Nat.le_refl _
  | succ m ih =>
    rcases Nat.lt_or_ge m1 (m + 1) with hlt | hge
    · have step : daysBeforeMonth y (m + 1) = daysBeforeMonth y m + daysInMonth y m := rfl
      have := ih (by omega)
      omega
    · have : m1 = m + 1 := by omega
      subst this
      exact Nat.le_refl _

/-- The day-of-year offset of a valid date lies strictly inside the year. -/
theorem dayOfYear_lt (y m d : Nat) (hm1 : 1 ≤ m) (hm2 : m ≤ 12) (hd1 : 1 ≤ d)
    (hd2 : d ≤ daysInMonth y m) :
    daysBeforeMonth y m + (d - 1) < daysInYear y := by
  have step : daysBeforeMonth y (m + 1) = daysBeforeMonth y m + daysInMonth y m := rfl
  have hmono : daysBeforeMonth y (m + 1) ≤ daysBeforeMonth y 13 :=
    daysBeforeMonth_mono y (m + 1) 13 (by omega)
  simp only [daysInYear]
  omega

/-- The length of a year is 366 or 365 according to the leap rule. -/
theorem daysInYear_eq (y : Nat) :
    daysInYear y = if isLeapYear y then 366 else 365 := by
  have e : daysInYear y
      = 0 + 0 + 31 + (if isLeapYear y then 29 else 28) + 31 + 30 + 31 + 30 + 31
        + 31 + 30 + 31 + 30 + 31 := rfl
  rw [e]
  by_cases h : isLeapYear y <;> simp [h]

set_option maxHeartbeats 1600000 in
/-- The closed form advances by exactly one year length at a time. -/
theorem daysBeforeYear_succ (y : Nat) :
    daysBeforeYear (y + 1) = daysBeforeYear y + daysInYear y := by
  rw [daysInYear_eq]
  simp only [daysBeforeYear]
  by_cases h : isLeapYear y
  · rw [if_pos h]
    simp only [isLeapYear, decide_eq_true_eq] at h
    omega
  · rw [if_neg h]
    simp only [isLeapYear, decide_eq_true_eq] at h
    omega

/-- Days before a year grow with the year. -/
theorem daysBeforeYear_mono : ∀ y1 y2 : Nat, y1 ≤ y2 →
    daysBeforeYear y1 ≤ daysBeforeYear y2 := by
  intro y1 y2 h
  induction y2 with
  | zero =>
    have : y1 = 0 := by omega
    subst this
    exact Nat.le_refl _
  | succ y ih =>
    rcases Nat.lt_or_ge y1 (y + 1) with hlt | hge
    · have step := daysBeforeYear_succ y
      have := ih (by omega)
      omega
    · have : y1 = y + 1 := by omega
      subst this
      exact Nat.le_refl _

/-- Lexicographically ordered valid dates have strictly increasing ordinal
day numbers. -/
theorem dayNumber_strict_mono {y1 m1 d1 y2 m2 d2 : Nat}
    (hv1 : 1 ≤ m1 ∧ m1 ≤ 12 ∧ 1 ≤ d1 ∧ d1 ≤ daysInMonth y1 m1)
    (hv2 : 1 ≤ m2 ∧ m2 ≤ 12 ∧ 1 ≤ d2 ∧ d2 ≤ daysInMonth y2 m2)
    (hlex : y1 < y2 ∨ (y1 = y2 ∧ (m1 < m2 ∨ (m1 = m2 ∧ d1 < d2)))) :
    dayNumber y1 m1 d1 < dayNumber y2 m2 d2 := by
  obtain ⟨hm11, hm12, hd11, hd12⟩ := hv1
  obtain ⟨hm21, hm22, hd21, hd22⟩ := hv2
  rcases hlex with hy | ⟨rfl, hm | ⟨rfl, hd⟩⟩
  · have h1 : daysBeforeMonth y1 m1 + (d1 - 1) < daysInYear y1 :=
      dayOfYear_lt y1 m1 d1 hm11 hm12 hd11 hd12
    have h2 : daysBeforeYear (y1 + 1) = daysBeforeYear y1 + daysInYear y1 :=
      daysBeforeYear_succ y1
    have h3 : daysBeforeYear (y1 + 1) ≤ daysBeforeYear y2 :=
      daysBeforeYear_mono (y1 + 1) y2 (by omega)
    simp only [dayNumber]
    omega
  · have step : daysBeforeMonth y1 (m1 + 1) = daysBeforeMonth y1 m1 + daysInMonth y1 m1 := rfl
    have hmono : daysBeforeMonth y1 (m1 + 1) ≤ daysBeforeMonth y1 m2 :=
      daysBeforeMonth_mono y1 (m1 + 1) m2 (by omega)
    simp only [dayNumber]
    omega
  · simp only [dayNumber]
    omega

/-- Between two parseable dates in strict Go string order, midnight epochs
differ by at least one full day (86400 seconds). -/
theorem dayBase_step {s1 s2 : String} {p1 p2 : Nat × Nat × Nat}
    (h1 : parseDate s1 = some p1) (h2 : parseDate s2 = some p2)
    (hlt : goStringLt s1 s2 = true) :
    dayBase s1 + 86400 ≤ dayBase s2 := by
  obtain ⟨ya, yb, yc, yd, ma, mb, da, db, _, _, _, _, hy1, hm1, hd1, hv1a, hv1b, hv1c, hv1d⟩ :=
    @parseDateChars_shape s1.data p1.1 p1.2.1 p1.2.2 h1
  obtain ⟨za, zb, zc, zd, na, nb, ea, eb, _, _, _, _, hy2, hm2, hd2, hv2a, hv2b, hv2c, hv2d⟩ :=
    @parseDateChars_shape s2.data p2.1 p2.2.1 p2.2.2 h2
  have hlex := (goStringLt_dates h1 h2).mp hlt
  have hnum : dayNumber p1.1 p1.2.1 p1.2.2 < dayNumber p2.1 p2.2.1 p2.2.2 := by
    apply dayNumber_strict_mono
    · exact ⟨hv1a, hv1b, hv1c, hv1d⟩
    · exact ⟨hv2a, hv2b, hv2c, hv2d⟩
    · exact hlex
  have e1 : dayBase s1 = midnightEpoch p1.1 p1.2.1 p1.2.2 := by
    simp [dayBase, epochOfDate, h1]
  have e2 : dayBase s2 = midnightEpoch p2.1 p2.2.1 p2.2.2 := by
    simp [dayBase, epochOfDate, h2]
  rw [e1, e2]
  simp only [midnightEpoch]
  omega

/-! ## Stream projections and scan predicates over concatenation -/

/-- Commit records distribute over stream concatenation. -/
theorem commitList_append (a b : List StreamObject) :
    commitList (a ++ b) = commitList a ++ commitList b := by
  simp [commitList, List.filterMap_append]

/-- Committer timestamps distribute over stream concatenation. -/
theorem commitSecs_append (a b : List StreamObject) :
    commitSecs (a ++ b) = commitSecs a ++ commitSecs b := by
  simp [commitSecs, commitList_append]

/-- Blob marks distribute over stream concatenation. -/
theorem blobMarks_append (a b : List StreamObject) :
    blobMarks (a ++ b) = blobMarks a ++ blobMarks b := by
  simp [blobMarks, List.filterMap_append]

/-- The mark scan over a concatenation: the second part starts from the marks
defined by the first. -/
theorem marksOK_append (l1 l2 : List StreamObject) : ∀ defined : List Nat,
    marksOK (l1 ++ l2) defined = (marksOK l1 defined && marksOK l2 (definedAfter defined l1)) := by
  induction l1 with
  | nil => intro defined; simp [marksOK, definedAfter]
  | cons o rest ih =>
    intro defined
    cases o with
    | blob m c => simp [marksOK, definedAfter, ih, Bool.and_assoc]
    | commit c => simp [marksOK, definedAfter, ih, Bool.and_assoc]
    | done => simp [marksOK, definedAfter, ih]

/-- The reference scan over a concatenation: the second part starts from the
last blob mark of the first. -/
theorem refsOK_append (l1 l2 : List StreamObject) : ∀ p : Option Nat,
    refsOK p (l1 ++ l2) = (refsOK p l1 && refsOK (lastBlob p l1) l2) := by
  induction l1 with
  | nil => intro p; simp [refsOK, lastBlob]
  | cons o rest ih =>
    intro p
    cases o with
    | blob m c => simp [refsOK, lastBlob, ih]
    | commit c => simp [refsOK, lastBlob, ih, Bool.and_assoc]
    | done => simp [refsOK, lastBlob, ih]

/-! ## Properties of the inner per-day loop -/

/-- Committer timestamps of one day's block: the base epoch plus the running
loop index. -/
theorem buildDayAux_commitSecs (cfgs : List LanguageConfig) (u e rn date : String)
    (count : Nat) (base : Int) : ∀ r i nm tc,
    commitSecs (buildDayAux cfgs u e rn date count base i r nm tc)
      = (List.range r).map (fun j => base + ((i + j : Nat) : Int)) := by
  intro r
  induction r with
  | zero => intro i nm tc; simp [buildDayAux, commitSecs, commitList]
  | succ r ih =>
    intro i nm tc
    have hpair : commitSecs (dayPairObjs cfgs u e rn date count base i nm tc)
        = [base + (i : Int)] := by
      simp [dayPairObjs, commitSecs, commitList]
    rw [buildDayAux, commitSecs_append, hpair, ih (i + 1) (nm + 1) (tc + 1),
      List.range_succ_eq_map, List.map_cons, List.map_map, List.singleton_append]
    congr 1
    apply List.map_congr_left
    intro j _
    simp only [Function.comp, Nat.succ_eq_add_one]
    omega

/-- Messages of one day's block. -/
theorem buildDayAux_messages (cfgs : List LanguageConfig) (u e rn date : String)
    (count : Nat) (base : Int) : ∀ r i nm tc,
    commitMessages (buildDayAux cfgs u e rn date count base i r nm tc)
      = (List.range r).map (fun j =>
          "Contribution on " ++ date ++ " (" ++ toString (i + j + 1) ++ "/" ++ toString count ++ ")") := by
  intro r
  induction r with
  | zero => intro i nm tc; simp [buildDayAux, commitMessages, commitList]
  | succ r ih =>
    intro i nm tc
    rw [buildDayAux]
    have happ : commitMessages (dayPairObjs cfgs u e rn date count base i nm tc
        ++ buildDayAux cfgs u e rn date count base (i + 1) r (nm + 1) (tc + 1))
        = commitMessages (dayPairObjs cfgs u e rn date count base i nm tc)
          ++ commitMessages (buildDayAux cfgs u e rn date count base (i + 1) r (nm + 1) (tc + 1)) := by
      simp [commitMessages, commitList_append]
    have hpair : commitMessages (dayPairObjs cfgs u e rn date count base i nm tc)
        = ["Contribution on " ++ date ++ " (" ++ toString (i + 1) ++ "/" ++ toString count ++ ")"] := by
      simp [dayPairObjs, commitMessages, commitList]
    rw [happ, hpair, ih (i + 1) (nm + 1) (tc + 1), List.range_succ_eq_map,
      List.map_cons, List.map_map, List.singleton_append]
    congr 1
    apply List.map_congr_left
    intro j _
    simp only [Function.comp, Nat.succ_eq_add_one]
    have harith : i + 1 + j + 1 = i + (j + 1) + 1 := by omega
    rw [harith]

/-- Number of commits of one day's block. -/
theorem buildDayAux_count (cfgs : List LanguageConfig) (u e rn date : String)
    (count : Nat) (base : Int) : ∀ r i nm tc,
    (commitList (buildDayAux cfgs u e rn date count base i r nm tc)).length = r := by
  intro r
  induction r with
  | zero => intro i nm tc; simp [buildDayAux, commitList]
  | succ r ih =>
    intro i nm tc
    rw [buildDayAux, commitList_append, List.length_append, ih (i + 1) (nm + 1) (tc + 1)]
    simp [dayPairObjs, commitList]
    omega

/-- Blob marks of one day's block: consecutive marks starting at `nm`. -/
theorem buildDayAux_blobMarks (cfgs : List LanguageConfig) (u e rn date : String)
    (count : Nat) (base : Int) : ∀ r i nm tc,
    blobMarks (buildDayAux cfgs u e rn date count base i r nm tc) = List.range' nm r := by
  intro r
  induction r with
  | zero => intro i nm tc; simp [buildDayAux, blobMarks]
  | succ r ih =>
    intro i nm tc
    rw [buildDayAux, blobMarks_append, ih (i + 1) (nm + 1) (tc + 1)]
    simp [dayPairObjs, blobMarks, List.range'_succ]

/-- Marks defined after one day's block. -/
theorem buildDayAux_definedAfter (cfgs : List LanguageConfig) (u e rn date : String)
    (count : Nat) (base : Int) : ∀ r i nm tc (defined : List Nat),
    definedAfter defined (buildDayAux cfgs u e rn date count base i r nm tc)
      = (List.range' nm r).reverse ++ defined := by
  intro r
  induction r with
  | zero => intro i nm tc defined; simp [buildDayAux, definedAfter]
  | succ r ih =>
    intro i nm tc defined
    rw [buildDayAux]
    have : definedAfter defined (dayPairObjs cfgs u e rn date count base i nm tc
        ++ buildDayAux cfgs u e rn date count base (i + 1) r (nm + 1) (tc + 1))
        = definedAfter (nm :: defined)
            (buildDayAux cfgs u e rn date count base (i + 1) r (nm + 1) (tc + 1)) := by
      simp [dayPairObjs, definedAfter]
    rw [this, ih (i + 1) (nm + 1) (tc + 1) (nm :: defined), List.range'_succ]
    simp

/-- The mark scan accepts one day's block whenever the README mark is
already defined and all defined marks are below the next unused mark. -/
theorem buildDayAux_marksOK (cfgs : List LanguageConfig) (u e rn date : String)
    (count : Nat) (base : Int) : ∀ r i nm tc (defined : List Nat),
    1 ∈ defined → (∀ x ∈ defined, x < nm) →
    marksOK (buildDayAux cfgs u e rn date count base i r nm tc) defined = true := by
  intro r
  induction r with
  | zero => intro i nm tc defined _ _; simp [buildDayAux, marksOK]
  | succ r ih =>
    intro i nm tc defined h1 hlt
    rw [buildDayAux, marksOK_append]
    have hda : definedAfter defined (dayPairObjs cfgs u e rn date count base i nm tc)
        = nm :: defined := by
      simp [dayPairObjs, definedAfter]
    rw [hda]
    have hblock : marksOK (dayPairObjs cfgs u e rn date count base i nm tc) defined = true := by
      simp only [dayPairObjs, marksOK, Bool.and_eq_true, List.all_eq_true, decide_eq_true_eq]
      refine ⟨fun x hx => hlt x hx, ?_, trivial⟩
      intro f hf
      simp only [List.mem_cons, List.not_mem_nil, or_false] at hf
      rcases hf with rfl | rfl
      · exact List.elem_eq_true_of_mem (List.mem_cons_of_mem _ h1)
      · exact List.elem_eq_true_of_mem (List.mem_cons_self _ _)
    rw [hblock]
    simp only [Bool.true_and]
    apply ih (i + 1) (nm + 1) (tc + 1) (nm :: defined)
    · exact List.mem_cons_of_mem _ h1
    · intro x hx
      rcases List.mem_cons.mp hx with rfl | hx
      · omega
      · have := hlt x hx
        omega

/-- The reference scan accepts one day's block from any starting mark. -/
theorem buildDayAux_refsOK (cfgs : List LanguageConfig) (u e rn date : String)
    (count : Nat) (base : Int) : ∀ r i nm tc (p : Option Nat),
    refsOK p (buildDayAux cfgs u e rn date count base i r nm tc) = true := by
  intro r
  induction r with
  | zero => intro i nm tc p; simp [buildDayAux, refsOK]
  | succ r ih =>
    intro i nm tc p
    rw [buildDayAux, refsOK_append]
    have hblock : refsOK p (dayPairObjs cfgs u e rn date count base i nm tc) = true := by
      simp [dayPairObjs, refsOK]
    rw [hblock]
    simp only [Bool.true_and]
    exact ih (i + 1) (nm + 1) (tc + 1) _

/-! ## Properties of the outer day loop -/

/-- Splitting an interval of consecutive naturals. -/
theorem range'_split (s a b : Nat) :
    List.range' s (a + b) = List.range' s a ++ List.range' (s + a) b := by
  induction a generalizing s with
  | zero => simp
  | succ a ih =>
    rw [List.range'_succ, show a + 1 + b = (a + b) + 1 from by omega, List.range'_succ,
      ih (s + 1)]
    simp only [List.cons_append]
    rw [show s + 1 + a = s + (a + 1) from by omega]

/-- Inversion of the day loop on the empty list. -/
theorem buildDays_nil_ok {cfgs : List LanguageConfig} {u e rn : String}
    {nm tc : Nat} {body : List StreamObject} {nm' tc' : Nat}
    (h : buildDays cfgs u e rn [] nm tc = .ok (body, nm', tc')) :
    body = [] ∧ nm' = nm ∧ tc' = tc := by
  simp only [buildDays, Except.ok.injEq, Prod.mk.injEq] at h
  exact ⟨h.1.symm, h.2.1.symm, h.2.2.symm⟩

/-- Inversion of the day loop on a cons cell: the day's date parses, its
block is emitted, and the loop continues with advanced mark and commit
counters. -/
theorem buildDays_cons_ok {cfgs : List LanguageConfig} {u e rn : String}
    {day : ContributionDay} {rest : List ContributionDay}
    {nm tc : Nat} {body : List StreamObject} {nm' tc' : Nat}
    (h : buildDays cfgs u e rn (day :: rest) nm tc = .ok (body, nm', tc')) :
    ∃ p body2,
      parseDate day.Date = some p ∧
      dayBase day.Date = midnightEpoch p.1 p.2.1 p.2.2 ∧
      buildDays cfgs u e rn rest (nm + day.Count.toNat) (tc + day.Count.toNat)
        = .ok (body2, nm', tc') ∧
      body = buildDayAux cfgs u e rn day.Date day.Count.toNat
          (midnightEpoch p.1 p.2.1 p.2.2) 0 day.Count.toNat nm tc ++ body2 := by
  rcases hp : parseDate day.Date with _ | p
  · simp [buildDays, hp] at h
  · rcases hrec : buildDays cfgs u e rn rest (nm + day.Count.toNat) (tc + day.Count.toNat)
      with er | ⟨body2, nm2, tc2⟩
    · simp [buildDays, hp, hrec] at h
    · simp only [buildDays, hp, hrec, Except.ok.injEq, Prod.mk.injEq] at h
      refine ⟨p, body2, rfl, ?_, ?_, ?_⟩
      · simp [dayBase, epochOfDate, hp]
      · rw [h.2.1, h.2.2]
      · exact h.1.symm

/-- Every date of a successfully built day list parses. -/
theorem buildDays_parse (cfgs : List LanguageConfig) (u e rn : String) :
    ∀ (days : List ContributionDay) (nm tc : Nat) (body : List StreamObject) (nm' tc' : Nat),
      buildDays cfgs u e rn days nm tc = .ok (body, nm', tc') →
      ∀ d ∈ days, ∃ p, parseDate d.Date = some p := by
  intro days
  induction days with
  | nil => intro nm tc body nm' tc' _ d hd; simp at hd
  | cons day rest ih =>
    intro nm tc body nm' tc' h d hd
    obtain ⟨p, body2, hp, _, hrec, _⟩ := buildDays_cons_ok h
    rcases List.mem_cons.mp hd with rfl | hd
    · exact ⟨p, hp⟩
    · exact ih _ _ _ _ _ hrec d hd

/-- Committer timestamps of a built day list are exactly the per-day ramps
(midnight plus 0, 1, ... seconds). -/
theorem buildDays_secs (cfgs : List LanguageConfig) (u e rn : String) :
    ∀ (days : List ContributionDay) (nm tc : Nat) (body : List StreamObject) (nm' tc' : Nat),
      buildDays cfgs u e rn days nm tc = .ok (body, nm', tc') →
      commitSecs body = expectedSecs days := by
  intro days
  induction days with
  | nil =>
    intro nm tc body nm' tc' h
    obtain ⟨rfl, -, -⟩ := buildDays_nil_ok h
    simp [commitSecs, commitList, expectedSecs]
  | cons day rest ih =>
    intro nm tc body nm' tc' h
    obtain ⟨p, body2, hp, hbase, hrec, rfl⟩ := buildDays_cons_ok h
    rw [commitSecs_append, buildDayAux_commitSecs, ih _ _ _ _ _ hrec]
    have hexp : expectedSecs (day :: rest)
        = (List.range day.Count.toNat).map (fun (j : Nat) => dayBase day.Date + (j : Int))
          ++ expectedSecs rest := rfl
    rw [hexp, hbase]
    congr 1
    apply List.map_congr_left
    intro j _
    omega

/-- Mark and commit counters advance by the total count; the number of
emitted commits equals the total count. -/
theorem buildDays_counts (cfgs : List LanguageConfig) (u e rn : String) :
    ∀ (days : List ContributionDay) (nm tc : Nat) (body : List StreamObject) (nm' tc' : Nat),
      buildDays cfgs u e rn days nm tc = .ok (body, nm', tc') →
      nm' = nm + (days.map (fun d => d.Count.toNat)).sum ∧
      tc' = tc + (days.map (fun d => d.Count.toNat)).sum ∧
      (commitList body).length = (days.map (fun d => d.Count.toNat)).sum := by
  intro days
  induction days with
  | nil =>
    intro nm tc body nm' tc' h
    obtain ⟨rfl, rfl, rfl⟩ := buildDays_nil_ok h
    simp [commitList]
  | cons day rest ih =>
    intro nm tc body nm' tc' h
    obtain ⟨p, body2, hp, hbase, hrec, rfl⟩ := buildDays_cons_ok h
    obtain ⟨h1, h2, h3⟩ := ih _ _ _ _ _ hrec
    rw [commitList_append, List.length_append, buildDayAux_count]
    simp only [List.map_cons, List.sum_cons]
    omega

/-- Blob marks of a built day list are consecutive starting at the first
unused mark. -/
theorem buildDays_blobMarks (cfgs : List LanguageConfig) (u e rn : String) :
    ∀ (days : List ContributionDay) (nm tc : Nat) (body : List StreamObject) (nm' tc' : Nat),
      buildDays cfgs u e rn days nm tc = .ok (body, nm', tc') →
      blobMarks body = List.range' nm ((days.map (fun d => d.Count.toNat)).sum) := by
  intro days
  induction days with
  | nil =>
    intro nm tc body nm' tc' h
    obtain ⟨rfl, -, -⟩ := buildDays_nil_ok h
    simp [blobMarks]
  | cons day rest ih =>
    intro nm tc body nm' tc' h
    obtain ⟨p, body2, hp, hbase, hrec, rfl⟩ := buildDays_cons_ok h
    rw [blobMarks_append, buildDayAux_blobMarks, ih _ _ _ _ _ hrec]
    simp only [List.map_cons, List.sum_cons]
    rw [range'_split]

/-- The mark scan accepts a built day list whenever the README mark is
defined and all defined marks are below the first unused mark. -/
theorem buildDays_marksOK (cfgs : List LanguageConfig) (u e rn : String) :
    ∀ (days : List ContributionDay) (nm tc : Nat) (body : List StreamObject) (nm' tc' : Nat),
      buildDays cfgs u e rn days nm tc = .ok (body, nm', tc') →
      ∀ defined : List Nat, 1 ∈ defined → (∀ x ∈ defined, x < nm) →
      marksOK body defined = true := by
  intro days
  induction days with
  | nil =>
    intro nm tc body nm' tc' h defined _ _
    obtain ⟨rfl, -, -⟩ := buildDays_nil_ok h
    simp [marksOK]
  | cons day rest ih =>
    intro nm tc body nm' tc' h defined h1 hlt
    obtain ⟨p, body2, hp, hbase, hrec, rfl⟩ := buildDays_cons_ok h
    rw [marksOK_append, buildDayAux_definedAfter,
      buildDayAux_marksOK cfgs u e rn day.Date day.Count.toNat _ _ 0 nm tc defined h1 hlt]
    simp only [Bool.true_and]
    apply ih _ _ _ _ _ hrec
    · exact List.mem_append_right _ h1
    · intro x hx
      rcases List.mem_append.mp hx with hx | hx
      · rw [List.mem_reverse] at hx
        have := List.mem_range'_1.mp hx
        omega
      · have := hlt x hx
        omega

/-- The reference scan accepts a built day list from any starting mark. -/
theorem buildDays_refsOK (cfgs : List LanguageConfig) (u e rn : String) :
    ∀ (days : List ContributionDay) (nm tc : Nat) (body : List StreamObject) (nm' tc' : Nat),
      buildDays cfgs u e rn days nm tc = .ok (body, nm', tc') →
      ∀ prev : Option Nat, refsOK prev body = true := by
  intro days
  induction days with
  | nil =>
    intro nm tc body nm' tc' h prev
    obtain ⟨rfl, -, -⟩ := buildDays_nil_ok h
    simp [refsOK]
  | cons day rest ih =>
    intro nm tc body nm' tc' h prev
    obtain ⟨p, body2, hp, hbase, hrec, rfl⟩ := buildDays_cons_ok h
    rw [refsOK_append, buildDayAux_refsOK]
    simp only [Bool.true_and]
    exact ih _ _ _ _ _ hrec _

/-! ## Inversion of a successful generation -/

/-- A successful `generateRepo` call validates the request (in particular no
negative day counts), builds the stream from the sorted positive days with
marks starting at 2 and commit counter 0, reports the emitted commit total,
and wraps the body in the README blob (mark 1) and the closing `done`. -/
theorem generateRepo_ok_struct {bp ts : String} {req : GenerateRepoRequest}
    {resp : GenerateRepoResponse} {stream : List StreamObject}
    (h : (generateRepo bp ts req).2 = .ok (resp, stream)) :
    ∃ cfgs body nm,
      resolveConfigs req = .ok cfgs ∧
      (∀ c ∈ req.Contributions, 0 ≤ c.Count) ∧
      buildDays cfgs (effUsername req) (effEmail req)
        (baseName (effRepoPath bp ts req ++ "/README.md")) (positiveContribs req) 2 0
        = .ok (body, nm, resp.CommitCount) ∧
      stream = StreamObject.blob 1 (generateMultiLanguageReadme (effRepoName req) cfgs)
        :: body ++ [StreamObject.done] := by
  rcases hres : resolveConfigs req with er | cfgs
  · simp [generateRepo, hres] at h
  · by_cases hemp : req.Contributions = []
    · simp [generateRepo, hres, hemp] at h
    · rcases hfind : req.Contributions.find? (fun c => decide (c.Count < 0)) with _ | day
      · have hnneg : ∀ c ∈ req.Contributions, 0 ≤ c.Count := by
          intro c hc
          have := List.find?_eq_none.mp hfind c hc
          simp at this
          omega
        by_cases hz : (req.Contributions.map ContributionDay.Count).sum = 0
        · simp [generateRepo, hres, hemp, hfind, hz] at h
        · rcases hbd : buildDays cfgs (effUsername req) (effEmail req)
              (baseName (effRepoPath bp ts req ++ "/README.md")) (positiveContribs req) 2 0
            with er2 | ⟨body, nm, tc⟩
          · simp [generateRepo, hres, hemp, hfind, hz, hbd] at h
          · simp only [generateRepo, hres, hemp, hfind, hz, hbd, if_neg, if_false,
              Except.ok.injEq, Prod.mk.injEq] at h
            refine ⟨cfgs, body, nm, rfl, hnneg, ?_, ?_⟩
            · rw [hbd]
              have hcc : resp.CommitCount = tc := by
                rw [← h.1]
              rw [hcc]
            · exact h.2.symm
      · simp [generateRepo, hres, hemp, hfind] at h

/-! ## Chains of timestamps -/

/-- Last element of a day's timestamp ramp. -/
theorem ramp_getLast (base : Int) (n : Nat) (h : n ≠ 0) :
    ((List.range n).map (fun (j : Nat) => base + (j : Int))).getLast?
      = some (base + ((n - 1 : Nat) : Int)) := by
  rcases n with _ | m
  · omega
  · rw [List.range_succ, List.map_append]
    simp [List.getLast?_concat]

/-- First element of a day's timestamp ramp. -/
theorem ramp_head (base : Int) (n : Nat) (h : n ≠ 0) :
    ((List.range n).map (fun (j : Nat) => base + (j : Int))).head? = some base := by
  rcases n with _ | m
  · omega
  · rw [List.range_succ_eq_map]
    simp

/-- A day's timestamp ramp is non-decreasing. -/
theorem chain'_ramp (base : Int) (n : Nat) :
    List.Chain' (· ≤ ·) ((List.range n).map (fun (j : Nat) => base + (j : Int))) := by
  induction n with
  | zero => simp
  | succ n ih =>
    rw [List.range_succ, List.map_append, List.chain'_append]
    refine ⟨ih, by simp, ?_⟩
    intro x hx y hy
    simp only [List.map_cons, List.map_nil, List.head?_cons, Option.mem_def,
      Option.some.injEq] at hy
    rcases n with _ | m
    · simp at hx
    · rw [ramp_getLast base (m + 1) (by omega)] at hx
      simp only [Option.mem_def, Option.some.injEq] at hx
      subst hx
      subst hy
      have : ((m + 1 - 1 : Nat) : Int) ≤ ((m + 1 : Nat) : Int) := by omega
      omega

/-- A concatenation of non-empty, internally non-decreasing blocks whose
consecutive boundary elements are ordered is non-decreasing (structure
follows the standard chain-of-blocks argument). -/
theorem chain'_le_flatMap (B : ContributionDay → List Int) :
    ∀ days : List ContributionDay,
      (∀ d ∈ days, B d ≠ []) →
      (∀ d ∈ days, List.Chain' (· ≤ ·) (B d)) →
      days.Chain' (fun a b => ∀ x ∈ (B a).getLast?, ∀ y ∈ (B b).head?, x ≤ y) →
      List.Chain' (· ≤ ·) (days.flatMap B) := by
  intro days
  induction days with
  | nil => intro _ _ _; simp
  | cons d rest ih =>
    intro hne hwithin hlink
    rw [List.flatMap_cons, List.chain'_append]
    refine ⟨hwithin d (by simp),
      ih (fun x hx => hne x (by simp [hx])) (fun x hx => hwithin x (by simp [hx]))
        hlink.tail, ?_⟩
    intro x hx y hy
    rcases rest with _ | ⟨d2, rest2⟩
    · simp at hy
    · rw [List.flatMap_cons] at hy
      have hhead : (B d2 ++ rest2.flatMap B).head? = (B d2).head? := by
        rcases hB : B d2 with _ | ⟨z, zs⟩
        · exact absurd hB (hne d2 (by simp))
        · simp
      rw [hhead] at hy
      exact (List.chain'_cons.mp hlink).1 x hx y hy

/-! ## The contribution-day sort -/

/-- The sort permutes its input. -/
theorem sortContribs_perm (l : List ContributionDay) : (sortContribs l).Perm l :=
  List.perm_insertionSort dayLe l

/-- The sort's output is pairwise non-descending in the date order. -/
theorem sortContribs_pairwise (l : List ContributionDay) :
    List.Pairwise dayLe (sortContribs l) := by
  haveI htot : IsTotal ContributionDay dayLe := ⟨by
    intro a b
    by_cases h : charListLt b.Date.data a.Date.data = true
    · exact Or.inr (charListLt_asymm _ _ h)
    · exact Or.inl (by simpa [dayLe, goStringLt] using h)⟩
  haveI htr : IsTrans ContributionDay dayLe := ⟨by
    intro a b c hab hbc
    simp only [dayLe, goStringLt] at hab hbc ⊢
    by_cases hca : charListLt c.Date.data a.Date.data = true
    · by_cases hab' : charListLt a.Date.data b.Date.data = true
      · have := charListLt_trans _ _ _ hca hab'
        rw [this] at hbc
        exact absurd hbc (by simp)
      · have heq := charListLt_eq_of_not _ _ (by simpa using hab') hab
        rw [heq] at hca
        rw [hca] at hbc
        exact absurd hbc (by simp)
    · simpa using hca⟩
  exact List.sorted_insertionSort dayLe l

/-- Summing the positive counts as naturals equals summing all counts as
integers when no count is negative. -/
theorem sum_toNat_filter : ∀ (l : List ContributionDay), (∀ c ∈ l, 0 ≤ c.Count) →
    ((((l.filter (fun c => decide (0 < c.Count))).map (fun d => d.Count.toNat)).sum : Nat) : Int)
      = (l.map ContributionDay.Count).sum := by
  intro l
  induction l with
  | nil => intro _; simp
  | cons c rest ih =>
    intro h
    have hc := h c (by simp)
    have ihr := ih (fun x hx => h x (by simp [hx]))
    by_cases hpos : 0 < c.Count
    · simp only [List.filter_cons]
      rw [if_pos (by simpa using hpos)]
      simp only [List.map_cons, List.sum_cons]
      push_cast
      push_cast at ihr
      omega
    · have hc0 : c.Count = 0 := by omega
      simp only [List.filter_cons]
      rw [if_neg (by simpa using hpos)]
      simp only [List.map_cons, List.sum_cons, hc0, ihr]
      omega

/-- Committer timestamps of the wrapped stream are those of the body. -/
theorem commitSecs_wrap (rc : String) (body : List StreamObject) :
    commitSecs (StreamObject.blob 1 rc :: body ++ [StreamObject.done]) = commitSecs body := by
  have : StreamObject.blob 1 rc :: body ++ [StreamObject.done]
      = [StreamObject.blob 1 rc] ++ body ++ [StreamObject.done] := rfl
  rw [this, commitSecs_append, commitSecs_append]
  simp [commitSecs, commitList]

/-- Commit records of the wrapped stream are those of the body. -/
theorem commitList_wrap (rc : String) (body : List StreamObject) :
    commitList (StreamObject.blob 1 rc :: body ++ [StreamObject.done]) = commitList body := by
  have : StreamObject.blob 1 rc :: body ++ [StreamObject.done]
      = [StreamObject.blob 1 rc] ++ body ++ [StreamObject.done] := rfl
  rw [this, commitList_append, commitList_append]
  simp [commitList]

/-- The boundary links between consecutive sorted days: with pairwise
distinct, parseable dates sorted by the Go string order and counts of at
most 86400, the last timestamp of each day is at most the first timestamp
of the next. -/
theorem sorted_day_links : ∀ days : List ContributionDay,
    List.Pairwise dayLe days →
    (days.map ContributionDay.Date).Nodup →
    (∀ d ∈ days, ∃ p, parseDate d.Date = some p) →
    (∀ d ∈ days, 0 < d.Count) →
    (∀ d ∈ days, d.Count ≤ 86400) →
    days.Chain' (fun a b =>
      ∀ x ∈ ((List.range a.Count.toNat).map (fun (j : Nat) => dayBase a.Date + (j : Int))).getLast?,
      ∀ y ∈ ((List.range b.Count.toNat).map (fun (j : Nat) => dayBase b.Date + (j : Int))).head?,
      x ≤ y) := by
  intro days
  induction days with
  | nil => intro _ _ _ _ _; simp
  | cons a rest ih =>
    intro hsort hnodup hparse hpos hbound
    rcases rest with _ | ⟨b, rest2⟩
    · simp
    · rw [List.chain'_cons]
      constructor
      · intro x hx y hy
        have hca : 0 < a.Count := hpos a (by simp)
        have hcb : 0 < b.Count := hpos b (by simp)
        rw [ramp_getLast _ _ (by omega)] at hx
        rw [ramp_head _ _ (by omega)] at hy
        simp only [Option.mem_def, Option.some.injEq] at hx hy
        subst hx
        subst hy
        obtain ⟨p1, hp1⟩ := hparse a (by simp)
        obtain ⟨p2, hp2⟩ := hparse b (by simp)
        have hle : dayLe a b := (List.pairwise_cons.mp hsort).1 b (by simp)
        have hne : a.Date ≠ b.Date := by
          rw [List.map_cons, List.map_cons, List.nodup_cons] at hnodup
          intro heq
          exact hnodup.1 (by rw [heq]; simp)
        have hlt : goStringLt a.Date b.Date = true := by
          by_cases h' : charListLt a.Date.data b.Date.data = true
          · exact h'
          · exfalso
            have heqd := charListLt_eq_of_not _ _ (by simpa using h')
              (by simpa [dayLe, goStringLt] using hle)
            exact hne (String.ext heqd)
        have hstep := dayBase_step hp1 hp2 hlt
        have hb' : a.Count.toNat ≤ 86400 := by
          have := hbound a (by simp)
          omega
        omega
      · apply ih (List.pairwise_cons.mp hsort).2
        · rw [List.map_cons, List.nodup_cons] at hnodup
          exact hnodup.2
        · intro d hd; exact hparse d (by simp [hd])
        · intro d hd; exact hpos d (by simp [hd])
        · intro d hd; exact hbound d (by simp [hd])

/-! ## Claims C4, C5 and C6: the fast-import stream -/

/-- C4 (amended): for every request `GenerateRepo` accepts, the committer
timestamps of the emitted stream are exactly, day by day in sorted order,
the day's midnight epoch plus `i-1` seconds for the day's `i`-th commit
(`expectedSecs`); and the timestamps are non-decreasing across the whole
stream provided the positive-count days have pairwise distinct dates and
every count is at most 86400 (one day in seconds) — the two hypotheses the
counterexample forces: duplicate dates or counts spilling past midnight
produce a decreasing stream. -/
theorem c4_timestamps_amended {bp ts : String} {req : GenerateRepoRequest}
    {resp : GenerateRepoResponse} {stream : List StreamObject}
    (h : (generateRepo bp ts req).2 = .ok (resp, stream)) :
    commitSecs stream = expectedSecs (positiveContribs req) ∧
    (((req.Contributions.filter (fun c => decide (0 < c.Count))).map ContributionDay.Date).Nodup →
     (∀ c ∈ req.Contributions, c.Count ≤ 86400) →
     List.Chain' (· ≤ ·) (commitSecs stream)) := by
  obtain ⟨cfgs, body, nm, hres, hnneg, hbd, hstream⟩ := generateRepo_ok_struct h
  have hsecs : commitSecs stream = expectedSecs (positiveContribs req) := by
    rw [hstream, commitSecs_wrap]
    exact buildDays_secs _ _ _ _ _ _ _ _ _ _ hbd
  refine ⟨hsecs, ?_⟩
  intro hnodup hbound
  rw [hsecs]
  have hperm : (positiveContribs req).Perm
      (req.Contributions.filter (fun c => decide (0 < c.Count))) := sortContribs_perm _
  have hmem : ∀ d ∈ positiveContribs req,
      d ∈ req.Contributions.filter (fun c => decide (0 < c.Count)) := by
    intro d hd
    exact hperm.mem_iff.mp hd
  have hpos : ∀ d ∈ positiveContribs req, 0 < d.Count := by
    intro d hd
    have := List.of_mem_filter (hmem d hd)
    simpa using this
  have hbound' : ∀ d ∈ positiveContribs req, d.Count ≤ 86400 := by
    intro d hd
    exact hbound d (List.mem_of_mem_filter (hmem d hd))
  have hparse : ∀ d ∈ positiveContribs req, ∃ p, parseDate d.Date = some p :=
    buildDays_parse _ _ _ _ _ _ _ _ _ _ hbd
  have hnodup' : ((positiveContribs req).map ContributionDay.Date).Nodup :=
    ((hperm.map ContributionDay.Date).nodup_iff).mpr hnodup
  have hsorted : List.Pairwise dayLe (positiveContribs req) := sortContribs_pairwise _
  apply chain'_le_flatMap
  · intro d hd
    have hc := hpos d hd
    simp only [ne_eq, List.map_eq_nil_iff, List.range_eq_nil]
    omega
  · intro d hd
    exact chain'_ramp _ _
  · exact sorted_day_links _ hsorted hnodup' hparse hpos hbound'

set_option maxRecDepth 4000

/-- C4 witness: scenario A is accepted, its stream's committer timestamps
match the per-day ramps, and — its one day having a distinct date and a
count of 3 ≤ 86400 — they are non-decreasing. -/
theorem c4_timestamps_witness :
    (generateRepo "/tmp/green-wall" "t" scenarioARequest).2
        = .ok (scenarioAResponse, scenarioAStream) ∧
    commitSecs scenarioAStream = expectedSecs (positiveContribs scenarioARequest) ∧
    List.Chain' (· ≤ ·) (commitSecs scenarioAStream) := by
  have h : (generateRepo "/tmp/green-wall" "t" scenarioARequest).2
      = .ok (scenarioAResponse, scenarioAStream) := by rfl
  have hmain := c4_timestamps_amended h
  exact ⟨h, hmain.1, hmain.2 (by decide) (by decide)⟩

/-- Two consecutive timestamp ramps whose second base undercuts the first
ramp's last element are not non-decreasing. -/
theorem chain_ramps_break (b1 b2 : Int) (n m : Nat) (hn : n ≠ 0) (hm : m ≠ 0)
    (hb : b2 < b1 + ((n - 1 : Nat) : Int)) :
    ¬ List.Chain' (· ≤ ·)
      (((List.range n).map (fun (j : Nat) => b1 + (j : Int)))
        ++ ((List.range m).map (fun (j : Nat) => b2 + (j : Int)))) := by
  intro hchain
  obtain ⟨-, -, hlink⟩ := List.chain'_append.mp hchain
  have hlast := ramp_getLast b1 n hn
  have hhead := ramp_head b2 m hm
  have hxy := hlink (b1 + ((n - 1 : Nat) : Int)) (by rw [hlast]; rfl)
    b2 (by rw [hhead]; rfl)
  omega

/-- C4 counterexample: the request listing the date 2024-01-01 twice is
accepted by `GenerateRepo`, yet its committer timestamps go back down
(1704067200, 1704067201, 1704067200); likewise a count of 86402 on
2024-01-01 spills one second past the next midnight, so the expected
timestamp sequence against 2024-01-02 decreases. The claim's unconditional
monotonicity is therefore false. -/
theorem c4_timestamps_counterexample :
    dupDatesSecs = [1704067200, 1704067201, 1704067200] ∧
    ¬ List.Chain' (· ≤ ·) dupDatesSecs ∧
    ¬ List.Chain' (· ≤ ·) (expectedSecs [⟨"2024-01-01", 86402⟩, ⟨"2024-01-02", 1⟩]) := by
  have hval : dupDatesSecs = [1704067200, 1704067201, 1704067200] := rfl
  refine ⟨hval, ?_, ?_⟩
  · rw [hval]
    intro hchain
    obtain ⟨-, h2⟩ := List.chain'_cons.mp hchain
    obtain ⟨hle, -⟩ := List.chain'_cons.mp h2
    omega
  · have hform : expectedSecs [⟨"2024-01-01", 86402⟩, ⟨"2024-01-02", 1⟩]
        = ((List.range 86402).map (fun (j : Nat) => dayBase "2024-01-01" + (j : Int)))
          ++ ((List.range 1).map (fun (j : Nat) => dayBase "2024-01-02" + (j : Int))) := by
      simp [expectedSecs]
    have h1 : dayBase "2024-01-01" = (1704067200 : Int) := rfl
    have h2 : dayBase "2024-01-02" = (1704153600 : Int) := rfl
    rw [hform]
    exact chain_ramps_break (dayBase "2024-01-01") (dayBase "2024-01-02") 86402 1
      (by omega) (by omega) (by rw [h1, h2]; omega)

/-- C5: for every request `GenerateRepo` accepts, the number of commit
records in the emitted fast-import stream equals the `CommitCount` of the
returned response, which equals the sum of all requested day counts; and
in scenario A (one day 2024-01-01 with count 3, single language markdown)
exactly 3 commits are emitted, with messages
"Contribution on 2024-01-01 (1/3)" through "(3/3)". -/
theorem c5_commit_totals {bp ts : String} {req : GenerateRepoRequest}
    {resp : GenerateRepoResponse} {stream : List StreamObject}
    (h : (generateRepo bp ts req).2 = .ok (resp, stream)) :
    ((commitList stream).length = resp.CommitCount ∧
     (resp.CommitCount : Int) = (req.Contributions.map ContributionDay.Count).sum) ∧
    (scenarioAResponse.CommitCount = 3 ∧
     commitMessages scenarioAStream
       = ["Contribution on 2024-01-01 (1/3)",
          "Contribution on 2024-01-01 (2/3)",
          "Contribution on 2024-01-01 (3/3)"]) := by
  obtain ⟨cfgs, body, nm, hres, hnneg, hbd, hstream⟩ := generateRepo_ok_struct h
  obtain ⟨-, htc, hlen⟩ := buildDays_counts _ _ _ _ _ _ _ _ _ _ hbd
  refine ⟨⟨?_, ?_⟩, rfl, rfl⟩
  · rw [hstream, commitList_wrap]
    omega
  · have hperm := sortContribs_perm (req.Contributions.filter (fun c => decide (0 < c.Count)))
    have hsum : ((positiveContribs req).map (fun d => d.Count.toNat)).sum
        = ((req.Contributions.filter (fun c => decide (0 < c.Count))).map
            (fun d => d.Count.toNat)).sum :=
      (hperm.map (fun d => d.Count.toNat)).sum_eq
    have hint := sum_toNat_filter req.Contributions hnneg
    rw [htc, hsum]
    omega

/-- C5 witness: the count identities instantiated at scenario A. -/
theorem c5_commit_totals_witness :
    (generateRepo "/tmp/green-wall" "t" scenarioARequest).2
        = .ok (scenarioAResponse, scenarioAStream) ∧
    (commitList scenarioAStream).length = scenarioAResponse.CommitCount ∧
    (scenarioAResponse.CommitCount : Int)
        = (scenarioARequest.Contributions.map ContributionDay.Count).sum := by
  have h : (generateRepo "/tmp/green-wall" "t" scenarioARequest).2
      = .ok (scenarioAResponse, scenarioAStream) := by rfl
  exact ⟨h, (c5_commit_totals h).1⟩

/-- C6: in every stream `GenerateRepo` emits, the blob marks are exactly
the consecutive interval starting at 1 (so marks start at 1, each newly
emitted blob's mark is one greater than the previous, and no mark is ever
reused); the left-to-right scan confirms each blob's mark strictly exceeds
every previously defined mark and each commit references only
already-defined marks; and every commit's file list references exactly the
README mark 1 and the mark of the blob emitted immediately before it. -/
theorem c6_mark_monotonicity {bp ts : String} {req : GenerateRepoRequest}
    {resp : GenerateRepoResponse} {stream : List StreamObject}
    (h : (generateRepo bp ts req).2 = .ok (resp, stream)) :
    blobMarks stream = List.range' 1 ((blobMarks stream).length) ∧
    marksOK stream [] = true ∧
    refsOK none stream = true := by
  obtain ⟨cfgs, body, nm, hres, hnneg, hbd, hstream⟩ := generateRepo_ok_struct h
  have hbm := buildDays_blobMarks _ _ _ _ _ _ _ _ _ _ hbd
  have hsplit : StreamObject.blob 1 (generateMultiLanguageReadme (effRepoName req) cfgs)
      :: body ++ [StreamObject.done]
      = [StreamObject.blob 1 (generateMultiLanguageReadme (effRepoName req) cfgs)]
        ++ body ++ [StreamObject.done] := rfl
  refine ⟨?_, ?_, ?_⟩
  · have hwrap : blobMarks stream = 1 :: blobMarks body := by
      rw [hstream, hsplit, blobMarks_append, blobMarks_append]
      simp [blobMarks]
    rw [hwrap, hbm]
    have hlen : (1 :: List.range' 2 (((positiveContribs req).map
        (fun d => d.Count.toNat)).sum)).length
        = (((positiveContribs req).map (fun d => d.Count.toNat)).sum) + 1 := by
      simp
    rw [hlen, List.range'_succ]
  · rw [hstream]
    have h1 : marksOK (StreamObject.blob 1 (generateMultiLanguageReadme (effRepoName req) cfgs)
        :: body ++ [StreamObject.done]) []
        = marksOK (body ++ [StreamObject.done]) [1] := by
      simp [marksOK]
    rw [h1, marksOK_append]
    rw [buildDays_marksOK _ _ _ _ _ _ _ _ _ _ hbd [1] (by simp)
      (by intro x hx; simp at hx; omega)]
    simp [marksOK]
  · rw [hstream]
    have h1 : refsOK none (StreamObject.blob 1 (generateMultiLanguageReadme (effRepoName req) cfgs)
        :: body ++ [StreamObject.done])
        = refsOK (some 1) (body ++ [StreamObject.done]) := by
      simp [refsOK]
    rw [h1, refsOK_append]
    rw [buildDays_refsOK _ _ _ _ _ _ _ _ _ _ hbd (some 1)]
    simp [refsOK]

/-- C6 witness: the mark invariants instantiated at scenario A. -/
theorem c6_mark_monotonicity_witness :
    (generateRepo "/tmp/green-wall" "t" scenarioARequest).2
        = .ok (scenarioAResponse, scenarioAStream) ∧
    blobMarks scenarioAStream = List.range' 1 ((blobMarks scenarioAStream).length) ∧
    marksOK scenarioAStream [] = true ∧
    refsOK none scenarioAStream = true := by
  have h : (generateRepo "/tmp/green-wall" "t" scenarioARequest).2
      = .ok (scenarioAResponse, scenarioAStream) := by rfl
  exact ⟨h, c6_mark_monotonicity h⟩

end GreenWall
